import Mathlib

/-!
Shallow embedding of the `paml` repository (a tokenizer, a lossless parser, a
canonical printer, and a serde-style encoder/decoder for a small configuration
language), translated from the Rust sources under `src/rust/src`.

Source text is modelled as `List Char`; spans are byte ranges computed with
UTF-8 byte sizes, exactly as the Rust code computes them via `char::len_utf8`.
Loops that are not structurally recursive take an explicit fuel argument; the
initial fuel chosen by the wrappers is always sufficient because each Rust
loop iteration consumes at least one character or token.
-/

/- Named quote, brace and backslash characters, used throughout the models. -/

def squote : Char := Char.ofNat 39

def dquote : Char := Char.ofNat 34

def backquote : Char := Char.ofNat 96

def backslash : Char := Char.ofNat 92

def lbraceChar : Char := Char.ofNat 123

def rbraceChar : Char := Char.ofNat 125

/-- UTF-8 encoding of a character (same byte count as Rust `char::len_utf8`). -/
def utf8EncodeChar (c : Char) : List Nat :=
  let v := c.toNat
  if v < 0x80 then [v]
  else if v < 0x800 then [0xC0 + v / 64, 0x80 + v % 64]
  else if v < 0x10000 then [0xE0 + v / 4096, 0x80 + v / 64 % 64, 0x80 + v % 64]
  else [0xF0 + v / 262144, 0x80 + v / 4096 % 64, 0x80 + v / 64 % 64, 0x80 + v % 64]

/-- Byte size of a character when UTF-8 encoded (Rust `char::len_utf8`). -/
def csize (c : Char) : Nat := (utf8EncodeChar c).length

/-- The UTF-8 byte sequence of a source text. -/
def utf8Bytes (cs : List Char) : List Nat := cs.flatMap utf8EncodeChar

/-- Byte length of a source text when UTF-8 encoded. -/
def byteLen (cs : List Char) : Nat := (utf8Bytes cs).length

theorem byteLen_nil : byteLen [] = 0 := rfl

theorem byteLen_cons (c : Char) (cs : List Char) :
    byteLen (c :: cs) = csize c + byteLen cs := by
  simp [byteLen, utf8Bytes, csize]

theorem byteLen_append (xs ys : List Char) :
    byteLen (xs ++ ys) = byteLen xs + byteLen ys := by
  simp [byteLen, utf8Bytes]

theorem csize_pos (c : Char) : 0 < csize c := by
  unfold csize utf8EncodeChar
  simp only []
  split
  · simp
  · split
    · simp
    · split <;> simp

/-- Byte span `[start, stop)` into the source. The Rust struct is
`Span { start: usize, end: usize }`; the `end` field is called `stop` here
because `end` is a Lean keyword. -/
structure Span where
  start : Nat
  stop : Nat
deriving DecidableEq

/-- `spansChain a ss b` says the spans `ss` tile the byte range `[a, b)` in
order, contiguously: the first starts at `a`, each starts where the previous
stopped, none runs backwards, and the last stops at `b`.  This is the formal
reading of "no gaps and no overlaps". -/
def spansChain : Nat → List Span → Nat → Prop
  | a, [], b => a = b
  | a, s :: ss, b => s.start = a ∧ a ≤ s.stop ∧ spansChain s.stop ss b

instance spansChainDec : ∀ a ss b, Decidable (spansChain a ss b)
  | a, [], b => (inferInstance : Decidable (a = b))
  | a, s :: ss, b =>
    have : Decidable (spansChain s.stop ss b) := spansChainDec s.stop ss b
    (inferInstance : Decidable (_ ∧ _ ∧ _))

theorem spansChain_le : ∀ (ss : List Span) (a b : Nat), spansChain a ss b → a ≤ b
  | [], a, b, h => Nat.le_of_eq h
  | s :: ss, a, b, h =>
    Nat.le_trans h.2.1 (spansChain_le ss s.stop b h.2.2)

theorem spansChain_append : ∀ (xs ys : List Span) (a m b : Nat),
    spansChain a xs m → spansChain m ys b → spansChain a (xs ++ ys) b
  | [], ys, a, m, b, hx, hy => by
    cases (show a = m from hx); simpa using hy
  | x :: xs, ys, a, m, b, hx, hy =>
    ⟨hx.1, hx.2.1, spansChain_append xs ys x.stop m b hx.2.2 hy⟩

/-- The bytes a span selects from a byte list. -/
def extractSeg (bytes : List Nat) (s : Span) : List Nat :=
  (bytes.drop s.start).take (s.stop - s.start)

theorem spansChain_extract : ∀ (ss : List Span) (a : Nat) (bytes : List Nat),
    spansChain a ss bytes.length →
    ((ss.map (extractSeg bytes)).flatten : List Nat) = bytes.drop a
  | [], a, bytes, h => by
    cases (show a = bytes.length from h)
    simp
  | s :: ss, a, bytes, h => by
    obtain ⟨hs, hle, hrest⟩ := h
    have ih := spansChain_extract ss s.stop bytes hrest
    simp only [List.map_cons, List.flatten_cons, ih, extractSeg, hs]
    have h1 : List.drop (s.stop - a) (List.drop a bytes) = List.drop s.stop bytes := by
      rw [List.drop_drop]
      congr 1
      omega
    calc List.take (s.stop - a) (List.drop a bytes) ++ List.drop s.stop bytes
        = List.take (s.stop - a) (List.drop a bytes)
            ++ List.drop (s.stop - a) (List.drop a bytes) := by rw [h1]
      _ = List.drop a bytes := List.take_append_drop _ _

/-! ## Tokenizer (src/rust/src/tokenize.rs) -/

inductive TokenType where
  | Comma
  | LSquare
  | RSquare
  | LBrace
  | RBrace
  | MultilineCommentStart
  | MultilineCommentEnd
  | SingleLineCommentStart
  | Newline
  | HorizontalWhitespace
  | Lt
  | Gt
  | BareString
  | QuotedString (delim_len : Nat)
deriving DecidableEq

structure Token where
  token_type : TokenType
  span : Span
deriving DecidableEq

inductive TokenizeError where
  | NoEndingQuote (open_span : Span)
  | NoEscapedCharacter (span : Span)
  | IncorrectOpeningQuotes (span : Span)
  | MismatchedEndingQuotes (open_span end_span : Span)
  /-- Model-only: fuel of the embedding ran out.  Every Rust loop consumes at
  least one character per iteration, so with the initial fuel chosen by
  `tokenize` this constructor is never produced. -/
  | ModelFuel
deriving DecidableEq

/-- Rust `char::is_ascii_whitespace`: space, tab, newline, carriage return,
form feed. -/
def is_ascii_whitespace (c : Char) : Bool :=
  c = ' ' || c = '\t' || c = '\n' || c = '\r' || c = '\x0C'

/-- `is_special_char` from tokenize.rs. -/
def is_special_char (c : Char) : Bool :=
  c = ',' || c = '[' || c = ']' || c = lbraceChar || c = rbraceChar || c = '#' ||
    c = squote || c = dquote || c = backquote || is_ascii_whitespace c

/-- The content-scanning loop of `string_token` (the `while let Some((_, c)) =
chars.next()` loop): `e` is the current value of the Rust `end` variable. -/
def string_token_loop (is_raw : Bool) (q : Char) (num_quotes : Nat) (start : Nat) :
    Nat → Nat → List Char → Except TokenizeError (Token × List Char)
  | 0, _, _ => .error .ModelFuel
  | _ + 1, _, [] => .error (.NoEndingQuote ⟨start, start + num_quotes * csize q⟩)
  | fuel + 1, e, c :: cs =>
    -- on a quote, `try_parse_end_quotes` consumes the whole run before comparing
    if c = q then
      if 1 + (cs.takeWhile (fun x => x == q)).length < num_quotes then
        string_token_loop is_raw q num_quotes start fuel
          (e + csize c + byteLen (cs.takeWhile (fun x => x == q)))
          (cs.dropWhile (fun x => x == q))
      else if 1 + (cs.takeWhile (fun x => x == q)).length = num_quotes then
        .ok (⟨.QuotedString (num_quotes * csize q),
          ⟨start, e + csize c + byteLen (cs.takeWhile (fun x => x == q))⟩⟩,
          cs.dropWhile (fun x => x == q))
      else
        .error (.MismatchedEndingQuotes ⟨start, start + num_quotes * csize q⟩
          ⟨e + csize c + byteLen (cs.takeWhile (fun x => x == q)) -
              (1 + (cs.takeWhile (fun x => x == q)).length) * csize q,
            e + csize c + byteLen (cs.takeWhile (fun x => x == q))⟩)
    else if !is_raw && c = backslash then
      match cs with
      | [] => .error (.NoEscapedCharacter ⟨e + csize c - 1, e + csize c⟩)
      | c2 :: cs2 =>
        string_token_loop is_raw q num_quotes start fuel (e + csize c + csize c2) cs2
    else
      string_token_loop is_raw q num_quotes start fuel (e + csize c) cs

/-- `string_token` from tokenize.rs.  `cs` is the input after the first quote
character `quote_char` (already consumed by the main loop). -/
def string_token (quote_char : Char) (start : Nat) (cs : List Char) :
    Except TokenizeError (Token × List Char) :=
  -- `num_quotes` below is `1 + (cs.takeWhile (fun x => x == quote_char)).length`;
  -- when it is even the token is an empty string written with
  -- `real_num_quotes := num_quotes / 2` quotes on either side.
  if (1 + (cs.takeWhile (fun x => x == quote_char)).length) % 2 = 0 then
    if (1 + (cs.takeWhile (fun x => x == quote_char)).length) / 2 % 2 = 0 then
      .error (.IncorrectOpeningQuotes
        ⟨start, start + (1 + (cs.takeWhile (fun x => x == quote_char)).length) * csize quote_char⟩)
    else
      .ok (⟨.QuotedString ((1 + (cs.takeWhile (fun x => x == quote_char)).length) / 2 *
          csize quote_char),
        ⟨start, start + (1 + (cs.takeWhile (fun x => x == quote_char)).length) * csize quote_char⟩⟩,
        cs.dropWhile (fun x => x == quote_char))
  else
    string_token_loop (quote_char = backquote) quote_char
      (1 + (cs.takeWhile (fun x => x == quote_char)).length) start
      ((cs.dropWhile (fun x => x == quote_char)).length + 1)
      (start + (1 + (cs.takeWhile (fun x => x == quote_char)).length) * csize quote_char)
      (cs.dropWhile (fun x => x == quote_char))

/-- One iteration of the main `tokenize` loop: the current character `c` at
byte index `i`, with `rest` the characters after it.  Returns the emitted
token and the remaining input. -/
def next_token (i : Nat) (c : Char) (rest : List Char) :
    Except TokenizeError (Token × List Char) :=
  if c = ',' then .ok (⟨.Comma, ⟨i, i + 1⟩⟩, rest)
  else if c = '[' then .ok (⟨.LSquare, ⟨i, i + 1⟩⟩, rest)
  else if c = ']' then .ok (⟨.RSquare, ⟨i, i + 1⟩⟩, rest)
  else if c = lbraceChar then .ok (⟨.LBrace, ⟨i, i + 1⟩⟩, rest)
  else if c = rbraceChar then .ok (⟨.RBrace, ⟨i, i + 1⟩⟩, rest)
  else if c = '#' then
    match rest with
    | '[' :: r => .ok (⟨.MultilineCommentStart, ⟨i, i + 2⟩⟩, r)
    | ']' :: r => .ok (⟨.MultilineCommentEnd, ⟨i, i + 2⟩⟩, r)
    | _ => .ok (⟨.SingleLineCommentStart, ⟨i, i + 1⟩⟩, rest)
  else if c = '\n' then .ok (⟨.Newline, ⟨i, i + 1⟩⟩, rest)
  else if c = '\r' then
    match rest with
    | '\n' :: r => .ok (⟨.Newline, ⟨i, i + 2⟩⟩, r)
    | _ => .ok (⟨.SingleLineCommentStart, ⟨i, i + 1⟩⟩, rest)
  else if is_ascii_whitespace c then
    .ok (⟨.HorizontalWhitespace, ⟨i, i + csize c + byteLen (rest.takeWhile is_ascii_whitespace)⟩⟩,
      rest.dropWhile is_ascii_whitespace)
  else if c = squote ∨ c = dquote ∨ c = backquote then
    string_token c i rest
  else
    .ok (⟨.BareString,
      ⟨i, i + csize c + byteLen (rest.takeWhile (fun x => !is_special_char x))⟩⟩,
      rest.dropWhile (fun x => !is_special_char x))

def tokenize_from : Nat → Nat → List Char → Except TokenizeError (List Token)
  | _, _, [] => .ok []
  | 0, _, _ :: _ => .error .ModelFuel
  | fuel + 1, i, c :: cs =>
    match next_token i c cs with
    | .error e => .error e
    | .ok (tok, rest) =>
      match tokenize_from fuel tok.span.stop rest with
      | .error e => .error e
      | .ok toks => .ok (tok :: toks)

/-- `tokenize` from tokenize.rs. -/
def tokenize (cs : List Char) : Except TokenizeError (List Token) :=
  tokenize_from (cs.length + 1) 0 cs

/-! ### Tokenizer spans are contiguous -/

theorem byteLen_takeWhile_add_dropWhile (p : Char → Bool) (l : List Char) :
    byteLen (l.takeWhile p) + byteLen (l.dropWhile p) = byteLen l := by
  rw [← byteLen_append, List.takeWhile_append_dropWhile]

theorem byteLen_takeWhile_eq_quote (q : Char) (l : List Char) :
    byteLen (l.takeWhile (fun x => x == q)) =
      (l.takeWhile (fun x => x == q)).length * csize q := by
  induction l with
  | nil => simp [byteLen, utf8Bytes]
  | cons c cs ih =>
    rw [List.takeWhile_cons]
    by_cases h : c = q
    · subst h
      simp only [beq_self_eq_true, if_true, byteLen_cons, List.length_cons, ih]
      ring
    · have hf : (c == q) = false := by simp [h]
      rw [hf]
      simp [byteLen, utf8Bytes]

theorem string_token_loop_bytes (is_raw : Bool) (q : Char) (nq start : Nat) :
    ∀ fuel e cs tok rest,
      string_token_loop is_raw q nq start fuel e cs = .ok (tok, rest) →
      tok.span.start = start ∧ e ≤ tok.span.stop ∧
        tok.span.stop + byteLen rest = e + byteLen cs := by
  intro fuel
  induction fuel with
  | zero => intro e cs tok rest h; simp [string_token_loop] at h
  | succ fuel ih =>
    intro e cs tok rest h
    match cs with
    | [] => simp [string_token_loop] at h
    | c :: cs' =>
      simp only [string_token_loop] at h
      split at h
      · -- c = q
        split at h
        · -- shorter end run: keep scanning
          have hr := ih _ _ _ _ h
          have hsplit := byteLen_takeWhile_add_dropWhile (fun x => x == q) cs'
          refine ⟨hr.1, by omega, by rw [byteLen_cons]; omega⟩
        · split at h
          · -- matching end run: token emitted
            simp only [Except.ok.injEq, Prod.mk.injEq] at h
            obtain ⟨htok, hrest⟩ := h
            subst htok; subst hrest
            have hsplit := byteLen_takeWhile_add_dropWhile (fun x => x == q) cs'
            exact ⟨rfl, by dsimp only; omega, by dsimp only; rw [byteLen_cons]; omega⟩
          · simp at h
      · split at h
        · -- escape character
          split at h
          · simp at h
          · rename_i c2 cs2
            have hr := ih _ _ _ _ h
            exact ⟨hr.1, by omega, by simp only [byteLen_cons]; omega⟩
        · -- ordinary content character
          have hr := ih _ _ _ _ h
          exact ⟨hr.1, by omega, by simp only [byteLen_cons]; omega⟩

theorem string_token_bytes (q : Char) (i : Nat) (cs : List Char) (tok : Token)
    (rest : List Char) (h : string_token q i cs = .ok (tok, rest)) :
    tok.span.start = i ∧ i ≤ tok.span.stop ∧
      tok.span.stop + byteLen rest = i + csize q + byteLen cs := by
  rw [string_token] at h
  have hrun := byteLen_takeWhile_eq_quote q cs
  have hsplit := byteLen_takeWhile_add_dropWhile (fun x => x == q) cs
  have hmul : (1 + (cs.takeWhile (fun x => x == q)).length) * csize q =
      csize q + byteLen (cs.takeWhile (fun x => x == q)) := by
    rw [hrun]; ring
  split at h
  · split at h
    · simp at h
    · simp only [Except.ok.injEq, Prod.mk.injEq] at h
      obtain ⟨htok, hrest⟩ := h
      subst htok; subst hrest
      refine ⟨rfl, by dsimp only; omega, by dsimp only; omega⟩
  · obtain ⟨hl1, hl2, hl3⟩ := string_token_loop_bytes _ q _ i _ _ _ _ _ h
    refine ⟨hl1, by omega, by omega⟩


theorem next_token_bytes (i : Nat) (c : Char) (rest : List Char) (tok : Token)
    (rest' : List Char) (h : next_token i c rest = .ok (tok, rest')) :
    tok.span.start = i ∧ i ≤ tok.span.stop ∧
      tok.span.stop + byteLen rest' = i + csize c + byteLen rest := by
  unfold next_token at h
  by_cases hc1 : c = ','
  · rw [if_pos hc1] at h
    simp only [Except.ok.injEq, Prod.mk.injEq] at h
    obtain ⟨htok, hrest⟩ := h
    subst htok; subst hrest; subst hc1
    exact ⟨rfl, by dsimp only; omega, by dsimp only; have hk : csize ',' = 1 := rfl; omega⟩
  rw [if_neg hc1] at h
  by_cases hc2 : c = '['
  · rw [if_pos hc2] at h
    simp only [Except.ok.injEq, Prod.mk.injEq] at h
    obtain ⟨htok, hrest⟩ := h
    subst htok; subst hrest; subst hc2
    exact ⟨rfl, by dsimp only; omega, by dsimp only; have hk : csize '[' = 1 := rfl; omega⟩
  rw [if_neg hc2] at h
  by_cases hc3 : c = ']'
  · rw [if_pos hc3] at h
    simp only [Except.ok.injEq, Prod.mk.injEq] at h
    obtain ⟨htok, hrest⟩ := h
    subst htok; subst hrest; subst hc3
    exact ⟨rfl, by dsimp only; omega, by dsimp only; have hk : csize ']' = 1 := rfl; omega⟩
  rw [if_neg hc3] at h
  by_cases hc4 : c = lbraceChar
  · rw [if_pos hc4] at h
    simp only [Except.ok.injEq, Prod.mk.injEq] at h
    obtain ⟨htok, hrest⟩ := h
    subst htok; subst hrest; subst hc4
    exact ⟨rfl, by dsimp only; omega, by dsimp only; have hk : csize lbraceChar = 1 := rfl; omega⟩
  rw [if_neg hc4] at h
  by_cases hc5 : c = rbraceChar
  · rw [if_pos hc5] at h
    simp only [Except.ok.injEq, Prod.mk.injEq] at h
    obtain ⟨htok, hrest⟩ := h
    subst htok; subst hrest; subst hc5
    exact ⟨rfl, by dsimp only; omega, by dsimp only; have hk : csize rbraceChar = 1 := rfl; omega⟩
  rw [if_neg hc5] at h
  by_cases hc6 : c = '#'
  · rw [if_pos hc6] at h
    subst hc6
    have hk : csize '#' = 1 := rfl
    split at h <;>
      (simp only [Except.ok.injEq, Prod.mk.injEq] at h
       obtain ⟨htok, hrest⟩ := h
       subst htok; subst hrest)
    · rename_i r
      exact ⟨rfl, by dsimp only; omega, by
        dsimp only
        have hk2 : csize '[' = 1 := rfl
        rw [byteLen_cons]; omega⟩
    · rename_i r
      exact ⟨rfl, by dsimp only; omega, by
        dsimp only
        have hk2 : csize ']' = 1 := rfl
        rw [byteLen_cons]; omega⟩
    · exact ⟨rfl, by dsimp only; omega, by dsimp only; omega⟩
  rw [if_neg hc6] at h
  by_cases hc7 : c = '\n'
  · rw [if_pos hc7] at h
    simp only [Except.ok.injEq, Prod.mk.injEq] at h
    obtain ⟨htok, hrest⟩ := h
    subst htok; subst hrest; subst hc7
    exact ⟨rfl, by dsimp only; omega, by dsimp only; have hk : csize '\n' = 1 := rfl; omega⟩
  rw [if_neg hc7] at h
  by_cases hc8 : c = '\r'
  · rw [if_pos hc8] at h
    subst hc8
    have hk : csize '\r' = 1 := rfl
    split at h <;>
      (simp only [Except.ok.injEq, Prod.mk.injEq] at h
       obtain ⟨htok, hrest⟩ := h
       subst htok; subst hrest)
    · rename_i r
      exact ⟨rfl, by dsimp only; omega, by
        dsimp only
        have hk2 : csize '\n' = 1 := rfl
        rw [byteLen_cons]; omega⟩
    · exact ⟨rfl, by dsimp only; omega, by dsimp only; omega⟩
  rw [if_neg hc8] at h
  by_cases hc9 : is_ascii_whitespace c = true
  · rw [if_pos hc9] at h
    simp only [Except.ok.injEq, Prod.mk.injEq] at h
    obtain ⟨htok, hrest⟩ := h
    subst htok; subst hrest
    have hsplit := byteLen_takeWhile_add_dropWhile is_ascii_whitespace rest
    exact ⟨rfl, by dsimp only; omega, by dsimp only; omega⟩
  rw [if_neg hc9] at h
  by_cases hc10 : c = squote ∨ c = dquote ∨ c = backquote
  · rw [if_pos hc10] at h
    exact string_token_bytes c i rest tok rest' h
  rw [if_neg hc10] at h
  simp only [Except.ok.injEq, Prod.mk.injEq] at h
  obtain ⟨htok, hrest⟩ := h
  subst htok; subst hrest
  have hsplit := byteLen_takeWhile_add_dropWhile (fun x => !is_special_char x) rest
  exact ⟨rfl, by dsimp only; omega, by dsimp only; omega⟩

theorem tokenize_from_chain :
    ∀ fuel i cs ts, tokenize_from fuel i cs = .ok ts →
      spansChain i (ts.map Token.span) (i + byteLen cs) := by
  intro fuel
  induction fuel with
  | zero =>
    intro i cs ts h
    match cs with
    | [] =>
      simp only [tokenize_from, Except.ok.injEq] at h
      subst h
      simp [spansChain, byteLen, utf8Bytes]
    | c :: cs' => simp [tokenize_from] at h
  | succ fuel ih =>
    intro i cs ts h
    match cs with
    | [] =>
      simp only [tokenize_from, Except.ok.injEq] at h
      subst h
      simp [spansChain, byteLen, utf8Bytes]
    | c :: cs' =>
      rw [tokenize_from] at h
      split at h
      · simp at h
      · rename_i tok rest h1
        split at h
        · simp at h
        · rename_i ts' h2
          simp only [Except.ok.injEq] at h
          subst h
          have hb := next_token_bytes i c cs' tok rest h1
          have hih := ih tok.span.stop rest ts' h2
          simp only [List.map_cons]
          refine ⟨hb.1, hb.1 ▸ hb.2.1, ?_⟩
          have hend : i + byteLen (c :: cs') = tok.span.stop + byteLen rest := by
            rw [byteLen_cons]; omega
          rw [hend]
          exact hih

/-! ## Parse trees (src/rust/src/lib.rs) and the lossless parser
(src/rust/src/parse.rs).

The parser file `parse.rs` is the authority here: it builds trees with a
`Str { val, delim_len, span }` variant (its `use` list names the `lib.rs`
types, and `tree_to_ast` maps trees onto an `Ast` with the same shape).
Everything lives in the `Paml` namespace because `Num` would otherwise clash
with a Mathlib name. -/

namespace Paml

structure Num where
  integer_part : List Char
  decimal_part : Option (List Char)
  exponent : Option (List Char)
deriving DecidableEq

inductive IgnoredKind where
  | HorizontalWhitespace
  | Newline
  | SingleLineComment
  | MultilineComment
deriving DecidableEq

structure IgnoredPart where
  span : Span
  kind : IgnoredKind
deriving DecidableEq

/-- Holds spans for whitespace and comments. -/
structure Ignored where
  parts : List IgnoredPart
deriving DecidableEq

/-- Span for a comma, with the ignored whitespace/comments after it. -/
structure Separator where
  sep : Span
  after : Ignored
deriving DecidableEq

mutual

inductive ParseTree where
  | Bool (val : Bool) (span : Span)
  | Num (val : Paml.Num) (span : Span)
  | Str (val : List Char) (delim_len : Nat) (span : Span)
  | List (opener : Span) (after_opener : Ignored) (items : List ListItem) (closer : Span)
  | Map (opener : Span) (after_opener : Ignored) (items : List MapItem) (closer : Span)

inductive ListItem where
  | mk (item : ParseTree) (after_item : Ignored) (sep : Option Separator)

inductive MapItem where
  | mk (key : ParseTree) (after_key : Ignored) (val : ParseTree) (after_val : Ignored)
      (sep : Option Separator)

end

inductive ValidationError where
  | DuplicateKey (key : List Char) (orig_span dupe_span : Span)
  | UnrecognizedStringFormatType (span : Span)
deriving DecidableEq

inductive ParseError where
  | EmptyFile
  | ExpectedValue (msg : String) (span : Span)
  | UnexpectedEof (expected : String) (cause_span : Span)
  | UnrecognizedStringType (span : Span)
  | UnmatchedStartDelimiter (expected : String) (cause_span : Span)
  | UnmatchedEndDelimiter (ending_delimiter : String) (span : Span)
  | UnexpectedToken (span : Span)
  | TokenizeError (err : TokenizeError)
  /-- Model-only: fuel ran out (unreachable with the initial fuel used). -/
  | ModelFuel
deriving DecidableEq

/-- `ParseTree::span` (impl in lib.rs, used by parse.rs for error spans). -/
def ParseTree.span : ParseTree → Span
  | .Bool _ s => s
  | .Num _ s => s
  | .Str _ _ s => s
  | .List opener _ _ closer => ⟨opener.start, closer.stop⟩
  | .Map opener _ _ closer => ⟨opener.start, closer.stop⟩

/-- Bytes `[a, b)` of the text, as characters (Rust `&self.text[span.start..span.end]`);
`p` is the byte offset of the head of the list. -/
def sliceBytes : Nat → List Char → Nat → Nat → List Char
  | _, [], _, _ => []
  | p, c :: cs, a, b =>
    if a ≤ p ∧ p < b then c :: sliceBytes (p + csize c) cs a b
    else sliceBytes (p + csize c) cs a b

/-- `get_span_contents` from parse.rs. -/
def get_span_contents (text : List Char) (s : Span) : List Char :=
  sliceBytes 0 text s.start s.stop

/-- `parse_quoted_string` from parse.rs: peek a `QuotedString` token; on a hit
return the payload between the delimiters (a byte slice of the span), the
delimiter length and the span, consuming the token. -/
def parse_quoted_string (text : List Char) :
    List Token → Option (List Char × Nat × Span) × List Token
  | ⟨.QuotedString delim_len, span⟩ :: ts =>
    (some (get_span_contents text ⟨span.start + delim_len, span.stop - delim_len⟩,
      delim_len, span), ts)
  | ts => (none, ts)

/-- `parse_string` from parse.rs.  Note the source classifies a bare word only
as `true`/`false`; numbers are left as bare strings (`// todo detect numbers`). -/
def parse_string (text : List Char) (ts : List Token) :
    Except ParseError (Option ParseTree × List Token) :=
  match parse_quoted_string text ts with
  | (some (s, delim_len, span), ts1) => .ok (some (.Str s delim_len span), ts1)
  | (none, _) =>
    match ts with
    | ⟨.BareString, bspan⟩ :: ts1 =>
      match parse_quoted_string text ts1 with
      | (some (s, delim_len, qspan), ts2) =>
        -- a string with a formatting type prefix
        .ok (some (.Str s delim_len ⟨bspan.start, qspan.stop⟩), ts2)
      | (none, _) =>
        if get_span_contents text bspan = "true".toList then
          .ok (some (.Bool true bspan), ts1)
        else if get_span_contents text bspan = "false".toList then
          .ok (some (.Bool false bspan), ts1)
        else
          .ok (some (.Str (get_span_contents text bspan) 0 bspan), ts1)
    | _ => .ok (none, ts)

/-- The merging loop of `parse_horizontal_whitespace`. -/
def hw_merge : Nat → List Token → Nat × List Token
  | e, ⟨.HorizontalWhitespace, s⟩ :: ts => hw_merge s.stop ts
  | e, ts => (e, ts)

def parse_horizontal_whitespace : List Token → Option IgnoredPart × List Token
  | ⟨.HorizontalWhitespace, s⟩ :: ts =>
    match hw_merge s.stop ts with
    | (e, ts1) => (some ⟨⟨s.start, e⟩, .HorizontalWhitespace⟩, ts1)
  | ts => (none, ts)

/-- The merging loop of `parse_single_line_comment`: consume every token that
is not a newline. -/
def slc_merge : Nat → List Token → Nat × List Token
  | e, [] => (e, [])
  | e, ⟨tt, s⟩ :: ts =>
    if tt = .Newline then (e, ⟨tt, s⟩ :: ts) else slc_merge s.stop ts

def parse_single_line_comment : List Token → Option IgnoredPart × List Token
  | ⟨.SingleLineCommentStart, s⟩ :: ts =>
    match slc_merge s.stop ts with
    | (e, ts1) => (some ⟨⟨s.start, e⟩, .SingleLineComment⟩, ts1)
  | ts => (none, ts)

/-- The stack loop of `parse_multiline_comment`.  Pushing is `cons`; popping
takes the head; when the stack empties on a `#]` the comment part is emitted. -/
def mlc_loop : List Span → List Token → Except ParseError (IgnoredPart × List Token)
  | stack, [] =>
    match stack with
    | top :: _ => .error (.UnmatchedStartDelimiter "#]" top)
    | [] => .error .ModelFuel  -- Rust `expect`: unreachable, the stack is never empty here
  | stack, ⟨tt, s⟩ :: ts =>
    match tt with
    | .MultilineCommentStart => mlc_loop (s :: stack) ts
    | .MultilineCommentEnd =>
      match stack with
      | start_span :: stack1 =>
        if stack1.isEmpty then .ok (⟨⟨start_span.start, s.stop⟩, .MultilineComment⟩, ts)
        else mlc_loop stack1 ts
      | [] => .error (.UnmatchedEndDelimiter "#]" s)
    | _ => mlc_loop stack ts

def parse_multiline_comment : List Token → Except ParseError (Option IgnoredPart × List Token)
  | ⟨.MultilineCommentStart, s⟩ :: ts =>
    match mlc_loop [s] ts with
    | .error e => .error e
    | .ok (part, ts1) => .ok (some part, ts1)
  | ts => .ok (none, ts)

/-- One iteration of the `parse_ignored` loop: try horizontal whitespace, a
single-line comment, a multiline comment, then a newline, in that order. -/
def parse_ignored_step (ts : List Token) :
    Except ParseError (List IgnoredPart × List Token) :=
  match parse_horizontal_whitespace ts with
  | (p1, ts1) =>
    match parse_single_line_comment ts1 with
    | (p2, ts2) =>
      match parse_multiline_comment ts2 with
      | .error e => .error e
      | .ok (p3, ts3) =>
        match ts3 with
        | ⟨.Newline, s⟩ :: ts4 =>
          .ok (p1.toList ++ p2.toList ++ p3.toList ++ [⟨s, .Newline⟩], ts4)
        | _ => .ok (p1.toList ++ p2.toList ++ p3.toList, ts3)

def parse_ignored_loop : Nat → List IgnoredPart → List Token →
    Except ParseError (Ignored × List Token)
  | 0, _, _ => .error .ModelFuel
  | fuel + 1, parts, ts =>
    match parse_ignored_step ts with
    | .error e => .error e
    | .ok (new, ts1) =>
      if new.isEmpty then .ok (⟨parts⟩, ts1)
      else parse_ignored_loop fuel (parts ++ new) ts1

/-- `parse_ignored` from parse.rs.  Each productive iteration consumes at
least one token, so `ts.length + 1` fuel always suffices. -/
def parse_ignored (ts : List Token) : Except ParseError (Ignored × List Token) :=
  parse_ignored_loop (ts.length + 1) [] ts

/-- `parse_item_sep` from parse.rs (a comma, then trailing trivia). -/
def parse_item_sep (ts : List Token) : Except ParseError (Option Separator × List Token) :=
  match ts with
  | ⟨.Comma, s⟩ :: ts1 =>
    match parse_ignored ts1 with
    | .error e => .error e
    | .ok (after, ts2) => .ok (some ⟨s, after⟩, ts2)
  | _ => .ok (none, ts)

/-- `expected_value_error` from parse.rs. -/
def expected_value_error (msg : String) (cause_span : Span) : List Token → ParseError
  | tok :: _ => .ExpectedValue msg tok.span
  | [] => .UnexpectedEof msg cause_span

mutual

/-- `parse_expr` from parse.rs: string, then list, then map. -/
def parse_expr (text : List Char) : Nat → List Token →
    Except ParseError (Option ParseTree × List Token)
  | 0, _ => .error .ModelFuel
  | fuel + 1, ts =>
    match parse_string text ts with
    | .error e => .error e
    | .ok (some tree, ts1) => .ok (some tree, ts1)
    | .ok (none, _) =>
      match parse_list text fuel ts with
      | .error e => .error e
      | .ok (some tree, ts1) => .ok (some tree, ts1)
      | .ok (none, _) =>
        match parse_map text fuel ts with
        | .error e => .error e
        | .ok (some tree, ts1) => .ok (some tree, ts1)
        | .ok (none, _) => .ok (none, ts)

/-- `parse_list` from parse.rs. -/
def parse_list (text : List Char) : Nat → List Token →
    Except ParseError (Option ParseTree × List Token)
  | 0, _ => .error .ModelFuel
  | fuel + 1, ts =>
    match ts with
    | ⟨.LSquare, sspan⟩ :: ts1 =>
      match parse_ignored ts1 with
      | .error e => .error e
      | .ok (after_opener, ts2) =>
        match list_loop text fuel sspan after_opener [] ts2 with
        | .error e => .error e
        | .ok (tree, ts3) => .ok (some tree, ts3)
    | _ => .ok (none, ts)

/-- The item loop of `parse_list`.  The closing token checked is `RSquare`. -/
def list_loop (text : List Char) : Nat → Span → Ignored → List ListItem → List Token →
    Except ParseError (ParseTree × List Token)
  | 0, _, _, _, _ => .error .ModelFuel
  | fuel + 1, opener, after_opener, items, ts =>
    match parse_expr text fuel ts with
    | .error e => .error e
    | .ok (some item, ts1) =>
      match parse_ignored ts1 with
      | .error e => .error e
      | .ok (after_item, ts2) =>
        match parse_item_sep ts2 with
        | .error e => .error e
        | .ok (sep, ts3) =>
          list_loop text fuel opener after_opener (items ++ [⟨item, after_item, sep⟩]) ts3
    | .ok (none, _) =>
      match ts with
      | ⟨.RSquare, espan⟩ :: ts1 => .ok (.List opener after_opener items espan, ts1)
      | _ => .error (.UnmatchedStartDelimiter "]" opener)

/-- `parse_map` from parse.rs.  The opener is `LBrace`. -/
def parse_map (text : List Char) : Nat → List Token →
    Except ParseError (Option ParseTree × List Token)
  | 0, _ => .error .ModelFuel
  | fuel + 1, ts =>
    match ts with
    | ⟨.LBrace, sspan⟩ :: ts1 =>
      match parse_ignored ts1 with
      | .error e => .error e
      | .ok (after_opener, ts2) =>
        match map_loop text fuel sspan after_opener [] ts2 with
        | .error e => .error e
        | .ok (tree, ts3) => .ok (some tree, ts3)
    | _ => .ok (none, ts)

/-- The item loop of `parse_map`.  Note: as in the source, the closing token
checked is `RSquare` (`]`), not `RBrace`, and the error message says `]`. -/
def map_loop (text : List Char) : Nat → Span → Ignored → List MapItem → List Token →
    Except ParseError (ParseTree × List Token)
  | 0, _, _, _, _ => .error .ModelFuel
  | fuel + 1, opener, after_opener, items, ts =>
    match parse_expr text fuel ts with
    | .error e => .error e
    | .ok (some key, ts1) =>
      match parse_ignored ts1 with
      | .error e => .error e
      | .ok (after_key, ts2) =>
        match parse_expr text fuel ts2 with
        | .error e => .error e
        | .ok (none, ts3) => .error (expected_value_error "" key.span ts3)
        | .ok (some val, ts3) =>
          match parse_ignored ts3 with
          | .error e => .error e
          | .ok (after_val, ts4) =>
            match parse_item_sep ts4 with
            | .error e => .error e
            | .ok (sep, ts5) =>
              map_loop text fuel opener after_opener
                (items ++ [⟨key, after_key, val, after_val, sep⟩]) ts5
    | .ok (none, _) =>
      match ts with
      | ⟨.RSquare, espan⟩ :: ts1 => .ok (.Map opener after_opener items espan, ts1)
      | _ => .error (.UnmatchedStartDelimiter "]" opener)

end

def ListItem.item : ListItem → ParseTree
  | .mk i _ _ => i

def ListItem.after_item : ListItem → Ignored
  | .mk _ a _ => a

def ListItem.sep : ListItem → Option Separator
  | .mk _ _ s => s

def MapItem.key : MapItem → ParseTree
  | .mk k _ _ _ _ => k

def MapItem.after_key : MapItem → Ignored
  | .mk _ a _ _ _ => a

def MapItem.val : MapItem → ParseTree
  | .mk _ _ v _ _ => v

def MapItem.after_val : MapItem → Ignored
  | .mk _ _ _ a _ => a

def MapItem.sep : MapItem → Option Separator
  | .mk _ _ _ _ s => s

/-- `LosslessParseResult` from parse.rs.  `validation_errors` is carried for
fidelity; no code path in parse.rs ever appends to it. -/
structure LosslessParseResult where
  before : Ignored
  tree : ParseTree
  after : Ignored
  validation_errors : List ValidationError

/-- `parse_lossless` from parse.rs. -/
def parse_lossless (text : List Char) : Except ParseError LosslessParseResult :=
  match tokenize text with
  | .error err => .error (.TokenizeError err)
  | .ok tokens =>
    match parse_ignored tokens with
    | .error e => .error e
    | .ok (before, ts1) =>
      match parse_expr text (4 * tokens.length + 8) ts1 with
      | .error e => .error e
      | .ok (expr, ts2) =>
        match parse_ignored ts2 with
        | .error e => .error e
        | .ok (after, ts3) =>
          match expr, ts3 with
          | some tree, [] => .ok ⟨before, tree, after, []⟩
          | none, [] => .error .EmptyFile
          | _, tok :: _ => .error (.UnexpectedToken tok.span)

/-- Modelled from the spec: the `Ast` type consumed by `tree_to_ast` in
parse.rs is not under `src/` (only its constructor uses appear there).  Spec
section 3 gives the lossy AST as `Bool | Num | Str | List | Map`, each with a
span, `Map` being an ordered sequence of key/value pairs. -/
inductive Ast where
  | Bool (val : Bool) (span : Span)
  | Num (val : Paml.Num) (span : Span)
  | Str (val : List Char) (span : Span)
  | List (val : List Ast) (span : Span)
  | Map (val : List (Ast × Ast)) (span : Span)

mutual

/-- `tree_to_ast` from parse.rs.  As in the source, a `Map` tree is lowered to
`Ast::List` of the lowered *keys* (the values are discarded). -/
def tree_to_ast : ParseTree → Ast
  | .Bool val span => .Bool val span
  | .Num val span => .Num val span
  | .Str val _ span => .Str val span
  | .List opener _ items closer =>
    .List (list_items_to_ast items) ⟨opener.start, closer.stop⟩
  | .Map opener _ items closer =>
    .List (map_items_to_ast items) ⟨opener.start, closer.stop⟩

def list_items_to_ast : List ListItem → List Ast
  | [] => []
  | .mk item _ _ :: rest => tree_to_ast item :: list_items_to_ast rest

def map_items_to_ast : List MapItem → List Ast
  | [] => []
  | .mk key _ _ _ _ :: rest => tree_to_ast key :: map_items_to_ast rest

end

/-- `LosslessParseResult::to_ast` from parse.rs: lowering is allowed only when
`validation_errors` is empty. -/
def LosslessParseResult.to_ast (r : LosslessParseResult) :
    Except (List ValidationError) Ast :=
  if r.validation_errors.isEmpty then .ok (tree_to_ast r.tree)
  else .error r.validation_errors

/-! ### The spans recorded in a lossless parse result, in source order -/

def Ignored.spans (ig : Ignored) : List Span := ig.parts.map IgnoredPart.span

def sep_spans : Option Separator → List Span
  | none => []
  | some s => s.sep :: s.after.spans

mutual

/-- All token spans and trivia spans of a tree, in source order: opener,
trivia after the opener, the items (each: its own spans, trivia after it, and
its separator with trailing trivia), then the closer. -/
def tree_spans : ParseTree → List Span
  | .Bool _ s => [s]
  | .Num _ s => [s]
  | .Str _ _ s => [s]
  | .List opener after_opener items closer =>
    opener :: (after_opener.spans ++ list_items_spans items ++ [closer])
  | .Map opener after_opener items closer =>
    opener :: (after_opener.spans ++ map_items_spans items ++ [closer])

def list_items_spans : List ListItem → List Span
  | [] => []
  | .mk item after_item sep :: rest =>
    tree_spans item ++ after_item.spans ++ sep_spans sep ++ list_items_spans rest

def map_items_spans : List MapItem → List Span
  | [] => []
  | .mk key after_key val after_val sep :: rest =>
    tree_spans key ++ after_key.spans ++ tree_spans val ++ after_val.spans ++
      sep_spans sep ++ map_items_spans rest

end

/-- Every span recorded in a parse result, in source order: leading trivia,
the tree, trailing trivia. -/
def result_spans (r : LosslessParseResult) : List Span :=
  r.before.spans ++ tree_spans r.tree ++ r.after.spans

end Paml

/-! ### The parser preserves span contiguity -/

namespace Paml

/-- The token spans of `ts` tile `[a, b)`. -/
def toksChain (a : Nat) (ts : List Token) (b : Nat) : Prop :=
  spansChain a (ts.map Token.span) b

theorem toksChain_cons {a b : Nat} {t : Token} {ts : List Token} :
    toksChain a (t :: ts) b ↔
      t.span.start = a ∧ a ≤ t.span.stop ∧ toksChain t.span.stop ts b := Iff.rfl

theorem parse_quoted_string_chain {text : List Char} {ts ts' : List Token}
    {a b : Nat} {s : List Char} {d : Nat} {span : Span}
    (hc : toksChain a ts b)
    (h : parse_quoted_string text ts = (some (s, d, span), ts')) :
    span.start = a ∧ a ≤ span.stop ∧ toksChain span.stop ts' b := by
  cases ts with
  | nil => simp [parse_quoted_string] at h
  | cons t rest =>
    obtain ⟨tt, sp⟩ := t
    cases tt
    case QuotedString dl =>
      simp only [parse_quoted_string, Prod.mk.injEq, Option.some.injEq] at h
      obtain ⟨⟨hs, hd, hspan⟩, hts⟩ := h
      subst hspan; subst hts
      obtain ⟨h1, h2, h3⟩ := toksChain_cons.mp hc
      exact ⟨h1, h2, h3⟩
    all_goals simp [parse_quoted_string] at h

theorem parse_quoted_string_none {text : List Char} {ts ts' : List Token}
    (h : parse_quoted_string text ts = (none, ts')) : ts' = ts := by
  cases ts with
  | nil => simp only [parse_quoted_string, Prod.mk.injEq] at h; exact h.2.symm
  | cons t rest =>
    obtain ⟨tt, sp⟩ := t
    cases tt
    case QuotedString dl => simp [parse_quoted_string] at h
    all_goals
      simp only [parse_quoted_string, Prod.mk.injEq] at h
    all_goals exact h.2.symm

theorem parse_string_chain {text : List Char} {ts ts' : List Token}
    {a b : Nat} {tree : ParseTree}
    (hc : toksChain a ts b)
    (h : parse_string text ts = .ok (some tree, ts')) :
    ∃ m, spansChain a (tree_spans tree) m ∧ toksChain m ts' b := by
  cases ts with
  | nil => simp [parse_string, parse_quoted_string] at h
  | cons t rest =>
    obtain ⟨tt, sp⟩ := t
    obtain ⟨h1, h2, h3⟩ := toksChain_cons.mp hc
    cases tt
    case QuotedString dl =>
      simp only [parse_string, parse_quoted_string, Except.ok.injEq, Prod.mk.injEq,
        Option.some.injEq] at h
      obtain ⟨htree, hts⟩ := h
      subst htree; subst hts
      exact ⟨sp.stop, ⟨h1, h2, rfl⟩, h3⟩
    case BareString =>
      simp only [parse_string, parse_quoted_string] at h
      split at h
      · -- bare word then quoted string: a format-typed string
        rename_i s dl qspan ts2 heq
        simp only [Except.ok.injEq, Prod.mk.injEq, Option.some.injEq] at h
        obtain ⟨htree, hts⟩ := h
        subst htree; subst hts
        obtain ⟨g1, g2, g3⟩ := parse_quoted_string_chain h3 heq
        refine ⟨qspan.stop, ⟨h1, by dsimp only; omega, rfl⟩, g3⟩
      · -- plain bare word: true / false / other
        split at h
        · simp only [Except.ok.injEq, Prod.mk.injEq, Option.some.injEq] at h
          obtain ⟨htree, hts⟩ := h
          subst htree; subst hts
          exact ⟨sp.stop, ⟨h1, h2, rfl⟩, h3⟩
        · split at h
          · simp only [Except.ok.injEq, Prod.mk.injEq, Option.some.injEq] at h
            obtain ⟨htree, hts⟩ := h
            subst htree; subst hts
            exact ⟨sp.stop, ⟨h1, h2, rfl⟩, h3⟩
          · simp only [Except.ok.injEq, Prod.mk.injEq, Option.some.injEq] at h
            obtain ⟨htree, hts⟩ := h
            subst htree; subst hts
            exact ⟨sp.stop, ⟨h1, h2, rfl⟩, h3⟩
    all_goals simp [parse_string, parse_quoted_string] at h

theorem hw_merge_chain : ∀ {ts : List Token} {e b e' : Nat} {ts' : List Token},
    toksChain e ts b → hw_merge e ts = (e', ts') →
    e ≤ e' ∧ toksChain e' ts' b := by
  intro ts
  induction ts with
  | nil =>
    intro e b e' ts' hc h
    simp only [hw_merge, Prod.mk.injEq] at h
    obtain ⟨he, hts⟩ := h
    subst he; subst hts
    exact ⟨Nat.le_refl _, hc⟩
  | cons t rest ih =>
    intro e b e' ts' hc h
    obtain ⟨tt, s⟩ := t
    obtain ⟨h1, h2, h3⟩ := toksChain_cons.mp hc
    cases tt
    case HorizontalWhitespace =>
      simp only [hw_merge] at h
      obtain ⟨g1, g2⟩ := ih h3 h
      exact ⟨Nat.le_trans h2 g1, g2⟩
    all_goals
      (simp only [hw_merge, Prod.mk.injEq] at h
       obtain ⟨he, hts⟩ := h
       subst he; subst hts
       exact ⟨Nat.le_refl _, hc⟩)

theorem parse_horizontal_whitespace_stage {ts ts' : List Token} {m b : Nat}
    {o : Option IgnoredPart}
    (hc : toksChain m ts b) (h : parse_horizontal_whitespace ts = (o, ts')) :
    ∃ m2, spansChain m (o.toList.map IgnoredPart.span) m2 ∧ toksChain m2 ts' b := by
  cases ts with
  | nil =>
    simp only [parse_horizontal_whitespace, Prod.mk.injEq] at h
    obtain ⟨ho, hts⟩ := h
    subst ho; subst hts
    exact ⟨m, rfl, hc⟩
  | cons t rest =>
    obtain ⟨tt, s⟩ := t
    obtain ⟨h1, h2, h3⟩ := toksChain_cons.mp hc
    cases tt
    case HorizontalWhitespace =>
      simp only [parse_horizontal_whitespace] at h
      rcases hm : hw_merge s.stop rest with ⟨e, ts1⟩
      rw [hm] at h
      simp only [Prod.mk.injEq] at h
      obtain ⟨ho, hts⟩ := h
      subst ho; subst hts
      obtain ⟨g1, g2⟩ := hw_merge_chain h3 hm
      exact ⟨e, ⟨h1, by dsimp only at h2 g1 ⊢; omega, rfl⟩, g2⟩
    all_goals
      (simp only [parse_horizontal_whitespace, Prod.mk.injEq] at h
       obtain ⟨ho, hts⟩ := h
       subst ho; subst hts
       exact ⟨m, rfl, hc⟩)

theorem slc_merge_chain : ∀ {ts : List Token} {e b e' : Nat} {ts' : List Token},
    toksChain e ts b → slc_merge e ts = (e', ts') →
    e ≤ e' ∧ toksChain e' ts' b := by
  intro ts
  induction ts with
  | nil =>
    intro e b e' ts' hc h
    simp only [slc_merge, Prod.mk.injEq] at h
    obtain ⟨he, hts⟩ := h
    subst he; subst hts
    exact ⟨Nat.le_refl _, hc⟩
  | cons t rest ih =>
    intro e b e' ts' hc h
    obtain ⟨tt, s⟩ := t
    obtain ⟨h1, h2, h3⟩ := toksChain_cons.mp hc
    simp only [slc_merge] at h
    split at h
    · simp only [Prod.mk.injEq] at h
      obtain ⟨he, hts⟩ := h
      subst he; subst hts
      exact ⟨Nat.le_refl _, hc⟩
    · obtain ⟨g1, g2⟩ := ih h3 h
      exact ⟨Nat.le_trans h2 g1, g2⟩

theorem parse_single_line_comment_stage {ts ts' : List Token} {m b : Nat}
    {o : Option IgnoredPart}
    (hc : toksChain m ts b) (h : parse_single_line_comment ts = (o, ts')) :
    ∃ m2, spansChain m (o.toList.map IgnoredPart.span) m2 ∧ toksChain m2 ts' b := by
  cases ts with
  | nil =>
    simp only [parse_single_line_comment, Prod.mk.injEq] at h
    obtain ⟨ho, hts⟩ := h
    subst ho; subst hts
    exact ⟨m, rfl, hc⟩
  | cons t rest =>
    obtain ⟨tt, s⟩ := t
    obtain ⟨h1, h2, h3⟩ := toksChain_cons.mp hc
    cases tt
    case SingleLineCommentStart =>
      simp only [parse_single_line_comment] at h
      rcases hm : slc_merge s.stop rest with ⟨e, ts1⟩
      rw [hm] at h
      simp only [Prod.mk.injEq] at h
      obtain ⟨ho, hts⟩ := h
      subst ho; subst hts
      obtain ⟨g1, g2⟩ := slc_merge_chain h3 hm
      exact ⟨e, ⟨h1, by dsimp only at h2 g1 ⊢; omega, rfl⟩, g2⟩
    all_goals
      (simp only [parse_single_line_comment, Prod.mk.injEq] at h
       obtain ⟨ho, hts⟩ := h
       subst ho; subst hts
       exact ⟨m, rfl, hc⟩)

theorem mlc_loop_chain : ∀ {ts : List Token} {stack pre : List Span} {s0 : Span}
    {a b : Nat} {part : IgnoredPart} {ts' : List Token},
    toksChain a ts b → stack = pre ++ [s0] →
    mlc_loop stack ts = .ok (part, ts') →
    part.span.start = s0.start ∧ a ≤ part.span.stop ∧ toksChain part.span.stop ts' b := by
  intro ts
  induction ts with
  | nil =>
    intro stack pre s0 a b part ts' hc hpre h
    subst hpre
    cases pre <;> simp [mlc_loop] at h
  | cons t rest ih =>
    intro stack pre s0 a b part ts' hc hpre h
    obtain ⟨tt, s⟩ := t
    obtain ⟨h1, h2, h3⟩ := toksChain_cons.mp hc
    cases tt
    case MultilineCommentStart =>
      simp only [mlc_loop] at h
      obtain ⟨g1, g2, g3⟩ := ih h3 (by rw [hpre]; rfl : s :: stack = (s :: pre) ++ [s0]) h
      exact ⟨g1, by omega, g3⟩
    case MultilineCommentEnd =>
      subst hpre
      cases pre with
      | nil =>
        simp only [mlc_loop, List.nil_append, List.isEmpty_nil, if_true, Except.ok.injEq,
          Prod.mk.injEq] at h
        obtain ⟨hp, hts⟩ := h
        subst hp; subst hts
        exact ⟨rfl, by dsimp only at h2 ⊢; omega, h3⟩
      | cons p0 ptl =>
        have hne : (ptl ++ [s0]).isEmpty = false := by simp
        simp only [mlc_loop, List.cons_append, hne, Bool.false_eq_true, if_false] at h
        obtain ⟨g1, g2, g3⟩ := ih h3 rfl h
        exact ⟨g1, by dsimp only at h2 g2 ⊢; omega, g3⟩
    all_goals
      (simp only [mlc_loop] at h
       obtain ⟨g1, g2, g3⟩ := ih h3 hpre h
       exact ⟨g1, by omega, g3⟩)

theorem parse_multiline_comment_stage {ts ts' : List Token} {m b : Nat}
    {o : Option IgnoredPart}
    (hc : toksChain m ts b) (h : parse_multiline_comment ts = .ok (o, ts')) :
    ∃ m2, spansChain m (o.toList.map IgnoredPart.span) m2 ∧ toksChain m2 ts' b := by
  cases ts with
  | nil =>
    simp only [parse_multiline_comment, Except.ok.injEq, Prod.mk.injEq] at h
    obtain ⟨ho, hts⟩ := h
    subst ho; subst hts
    exact ⟨m, rfl, hc⟩
  | cons t rest =>
    obtain ⟨tt, s⟩ := t
    obtain ⟨h1, h2, h3⟩ := toksChain_cons.mp hc
    cases tt
    case MultilineCommentStart =>
      simp only [parse_multiline_comment] at h
      rcases hm : mlc_loop [s] rest with e | ⟨part, ts1⟩
      · rw [hm] at h; simp at h
      · rw [hm] at h
        simp only [Except.ok.injEq, Prod.mk.injEq] at h
        obtain ⟨ho, hts⟩ := h
        subst ho; subst hts
        obtain ⟨g1, g2, g3⟩ := mlc_loop_chain h3 (by rfl : [s] = [] ++ [s]) hm
        refine ⟨part.span.stop, ⟨?_, by omega, rfl⟩, g3⟩
        rw [g1, h1]
    all_goals
      (simp only [parse_multiline_comment, Except.ok.injEq, Prod.mk.injEq] at h
       obtain ⟨ho, hts⟩ := h
       subst ho; subst hts
       exact ⟨m, rfl, hc⟩)

theorem parse_ignored_step_chain {ts ts' : List Token} {a b : Nat} {new : List IgnoredPart}
    (hc : toksChain a ts b) (h : parse_ignored_step ts = .ok (new, ts')) :
    ∃ m, spansChain a (new.map IgnoredPart.span) m ∧ toksChain m ts' b := by
  rw [parse_ignored_step] at h
  rcases h1 : parse_horizontal_whitespace ts with ⟨p1, ts1⟩
  rw [h1] at h
  dsimp only at h
  obtain ⟨m1, hm1, hc1⟩ := parse_horizontal_whitespace_stage hc h1
  rcases h2 : parse_single_line_comment ts1 with ⟨p2, ts2⟩
  rw [h2] at h
  dsimp only at h
  obtain ⟨m2, hm2, hc2⟩ := parse_single_line_comment_stage hc1 h2
  rcases h3 : parse_multiline_comment ts2 with e | pr
  · rw [h3] at h; simp at h
  · obtain ⟨p3, ts3⟩ := pr
    rw [h3] at h
    dsimp only at h
    obtain ⟨m3, hm3, hc3⟩ := parse_multiline_comment_stage hc2 h3
    have c12 := spansChain_append _ _ _ _ _ hm1 hm2
    have c123 := spansChain_append _ _ _ _ _ c12 hm3
    cases ts3 with
    | nil =>
      simp only [Except.ok.injEq, Prod.mk.injEq] at h
      obtain ⟨hnew, hts⟩ := h
      subst hnew; subst hts
      refine ⟨m3, ?_, hc3⟩
      simpa only [List.map_append] using c123
    | cons t rest =>
      obtain ⟨tt, s⟩ := t
      obtain ⟨g1, g2, g3⟩ := toksChain_cons.mp hc3
      cases tt
      case Newline =>
        simp only [Except.ok.injEq, Prod.mk.injEq] at h
        obtain ⟨hnew, hts⟩ := h
        subst hnew; subst hts
        refine ⟨s.stop, ?_, g3⟩
        have cnl : spansChain m3 ([(⟨s, .Newline⟩ : IgnoredPart)].map IgnoredPart.span) s.stop :=
          ⟨g1, g2, rfl⟩
        simpa only [List.map_append] using spansChain_append _ _ _ _ _ c123 cnl
      all_goals
        (simp only [Except.ok.injEq, Prod.mk.injEq] at h
         obtain ⟨hnew, hts⟩ := h
         subst hnew; subst hts
         refine ⟨m3, ?_, hc3⟩
         simpa only [List.map_append] using c123)

theorem parse_ignored_loop_chain : ∀ {fuel : Nat} {parts : List IgnoredPart}
    {ts ts' : List Token} {a0 a b : Nat} {ig : Ignored},
    spansChain a0 (parts.map IgnoredPart.span) a → toksChain a ts b →
    parse_ignored_loop fuel parts ts = .ok (ig, ts') →
    ∃ m, spansChain a0 ig.spans m ∧ toksChain m ts' b := by
  intro fuel
  induction fuel with
  | zero =>
    intro parts ts ts' a0 a b ig hacc hc h
    simp [parse_ignored_loop] at h
  | succ fuel ih =>
    intro parts ts ts' a0 a b ig hacc hc h
    rw [parse_ignored_loop] at h
    rcases hstep : parse_ignored_step ts with e | pr
    · rw [hstep] at h; simp at h
    · obtain ⟨new, ts1⟩ := pr
      rw [hstep] at h
      dsimp only at h
      obtain ⟨m, hm, hcm⟩ := parse_ignored_step_chain hc hstep
      by_cases hempty : new.isEmpty
      · rw [if_pos hempty] at h
        simp only [Except.ok.injEq, Prod.mk.injEq] at h
        obtain ⟨hig, hts⟩ := h
        subst hig; subst hts
        have hnil : new = [] := by simpa using hempty
        subst hnil
        have hma : a = m := hm
        subst hma
        exact ⟨a, hacc, hcm⟩
      · rw [if_neg hempty] at h
        have hacc2 : spansChain a0 ((parts ++ new).map IgnoredPart.span) m := by
          rw [List.map_append]
          exact spansChain_append _ _ _ _ _ hacc hm
        exact ih hacc2 hcm h

theorem parse_ignored_chain {ts ts' : List Token} {a b : Nat} {ig : Ignored}
    (hc : toksChain a ts b) (h : parse_ignored ts = .ok (ig, ts')) :
    ∃ m, spansChain a ig.spans m ∧ toksChain m ts' b :=
  parse_ignored_loop_chain (show spansChain a (([] : List IgnoredPart).map IgnoredPart.span) a from rfl) hc h

theorem parse_item_sep_chain {ts ts' : List Token} {a b : Nat} {o : Option Separator}
    (hc : toksChain a ts b) (h : parse_item_sep ts = .ok (o, ts')) :
    ∃ m, spansChain a (sep_spans o) m ∧ toksChain m ts' b := by
  cases ts with
  | nil =>
    simp only [parse_item_sep, Except.ok.injEq, Prod.mk.injEq] at h
    obtain ⟨ho, hts⟩ := h
    subst ho; subst hts
    exact ⟨a, rfl, hc⟩
  | cons t rest =>
    obtain ⟨tt, s⟩ := t
    obtain ⟨h1, h2, h3⟩ := toksChain_cons.mp hc
    cases tt
    case Comma =>
      simp only [parse_item_sep] at h
      rcases hig : parse_ignored rest with e | pr
      · rw [hig] at h; simp at h
      · obtain ⟨after, ts2⟩ := pr
        rw [hig] at h
        simp only [Except.ok.injEq, Prod.mk.injEq] at h
        obtain ⟨ho, hts⟩ := h
        subst ho; subst hts
        obtain ⟨m, hm, hc2⟩ := parse_ignored_chain h3 hig
        exact ⟨m, ⟨h1, h2, hm⟩, hc2⟩
    all_goals
      (simp only [parse_item_sep, Except.ok.injEq, Prod.mk.injEq] at h
       obtain ⟨ho, hts⟩ := h
       subst ho; subst hts
       exact ⟨a, rfl, hc⟩)

theorem list_items_spans_append : ∀ (xs ys : List ListItem),
    list_items_spans (xs ++ ys) = list_items_spans xs ++ list_items_spans ys := by
  intro xs ys
  induction xs with
  | nil => simp [list_items_spans]
  | cons x rest ih =>
    obtain ⟨item, after_item, sep⟩ := x
    simp [list_items_spans, ih]

theorem map_items_spans_append : ∀ (xs ys : List MapItem),
    map_items_spans (xs ++ ys) = map_items_spans xs ++ map_items_spans ys := by
  intro xs ys
  induction xs with
  | nil => simp [map_items_spans]
  | cons x rest ih =>
    obtain ⟨key, after_key, val, after_val, sep⟩ := x
    simp [map_items_spans, ih]

theorem spansChain_cons_extend {a0 a m : Nat} {s : Span} {xs ys : List Span}
    (h1 : spansChain a0 (s :: xs) a) (h2 : spansChain a ys m) :
    spansChain a0 (s :: (xs ++ ys)) m :=
  ⟨h1.1, h1.2.1, spansChain_append _ _ _ _ _ h1.2.2 h2⟩

theorem parser_chain (text : List Char) : ∀ fuel : Nat,
    (∀ {ts ts' : List Token} {a b : Nat} {tree : ParseTree},
      toksChain a ts b → parse_expr text fuel ts = .ok (some tree, ts') →
      ∃ m, spansChain a (tree_spans tree) m ∧ toksChain m ts' b) ∧
    (∀ {ts ts' : List Token} {a b : Nat} {tree : ParseTree},
      toksChain a ts b → parse_list text fuel ts = .ok (some tree, ts') →
      ∃ m, spansChain a (tree_spans tree) m ∧ toksChain m ts' b) ∧
    (∀ {ts ts' : List Token} {a b : Nat} {tree : ParseTree},
      toksChain a ts b → parse_map text fuel ts = .ok (some tree, ts') →
      ∃ m, spansChain a (tree_spans tree) m ∧ toksChain m ts' b) ∧
    (∀ {opener : Span} {after : Ignored} {items : List ListItem} {ts ts' : List Token}
      {a0 a b : Nat} {tree : ParseTree},
      spansChain a0 (opener :: (after.spans ++ list_items_spans items)) a →
      toksChain a ts b →
      list_loop text fuel opener after items ts = .ok (tree, ts') →
      ∃ m, spansChain a0 (tree_spans tree) m ∧ toksChain m ts' b) ∧
    (∀ {opener : Span} {after : Ignored} {items : List MapItem} {ts ts' : List Token}
      {a0 a b : Nat} {tree : ParseTree},
      spansChain a0 (opener :: (after.spans ++ map_items_spans items)) a →
      toksChain a ts b →
      map_loop text fuel opener after items ts = .ok (tree, ts') →
      ∃ m, spansChain a0 (tree_spans tree) m ∧ toksChain m ts' b) := by
  intro fuel
  induction fuel with
  | zero =>
    refine ⟨?_, ?_, ?_, ?_, ?_⟩
    · intro ts ts' a b tree hc h; simp [parse_expr] at h
    · intro ts ts' a b tree hc h; simp [parse_list] at h
    · intro ts ts' a b tree hc h; simp [parse_map] at h
    · intro opener after items ts ts' a0 a b tree hacc hc h; simp [list_loop] at h
    · intro opener after items ts ts' a0 a b tree hacc hc h; simp [map_loop] at h
  | succ fuel ih =>
    obtain ⟨ihe, ihl, ihm, ihll, ihml⟩ := ih
    refine ⟨?_, ?_, ?_, ?_, ?_⟩
    · -- parse_expr
      intro ts ts' a b tree hc h
      simp only [parse_expr] at h
      rcases hs : parse_string text ts with e | pr
      · rw [hs] at h; simp at h
      · obtain ⟨o, ts1⟩ := pr
        rw [hs] at h
        cases o with
        | some tr =>
          dsimp only at h
          simp only [Except.ok.injEq, Prod.mk.injEq, Option.some.injEq] at h
          obtain ⟨htr, hts⟩ := h
          subst htr; subst hts
          exact parse_string_chain hc hs
        | none =>
          dsimp only at h
          rcases hl : parse_list text fuel ts with e | pr2
          · rw [hl] at h; simp at h
          · obtain ⟨o2, ts2⟩ := pr2
            rw [hl] at h
            cases o2 with
            | some tr =>
              dsimp only at h
              simp only [Except.ok.injEq, Prod.mk.injEq, Option.some.injEq] at h
              obtain ⟨htr, hts⟩ := h
              subst htr; subst hts
              exact ihl hc hl
            | none =>
              dsimp only at h
              rcases hm : parse_map text fuel ts with e | pr3
              · rw [hm] at h; simp at h
              · obtain ⟨o3, ts3⟩ := pr3
                rw [hm] at h
                cases o3 with
                | some tr =>
                  dsimp only at h
                  simp only [Except.ok.injEq, Prod.mk.injEq, Option.some.injEq] at h
                  obtain ⟨htr, hts⟩ := h
                  subst htr; subst hts
                  exact ihm hc hm
                | none => simp at h
    · -- parse_list
      intro ts ts' a b tree hc h
      simp only [parse_list] at h
      cases ts with
      | nil => simp at h
      | cons t rest =>
        obtain ⟨tt, sp⟩ := t
        obtain ⟨h1, h2, h3⟩ := toksChain_cons.mp hc
        cases tt
        case LSquare =>
          dsimp only at h
          rcases hig : parse_ignored rest with e | pr
          · rw [hig] at h; simp at h
          · obtain ⟨after, ts2⟩ := pr
            rw [hig] at h; dsimp only at h
            obtain ⟨m1, hm1, hc2⟩ := parse_ignored_chain h3 hig
            rcases hloop : list_loop text fuel sp after [] ts2 with e | pr2
            · rw [hloop] at h; simp at h
            · obtain ⟨tr, ts3⟩ := pr2
              rw [hloop] at h; dsimp only at h
              simp only [Except.ok.injEq, Prod.mk.injEq, Option.some.injEq] at h
              obtain ⟨htr, hts⟩ := h
              subst htr; subst hts
              have hacc : spansChain a (sp :: (after.spans ++ list_items_spans [])) m1 :=
                ⟨h1, h2, by simpa [list_items_spans] using hm1⟩
              exact ihll hacc hc2 hloop
        all_goals simp at h
    · -- parse_map
      intro ts ts' a b tree hc h
      simp only [parse_map] at h
      cases ts with
      | nil => simp at h
      | cons t rest =>
        obtain ⟨tt, sp⟩ := t
        obtain ⟨h1, h2, h3⟩ := toksChain_cons.mp hc
        cases tt
        case LBrace =>
          dsimp only at h
          rcases hig : parse_ignored rest with e | pr
          · rw [hig] at h; simp at h
          · obtain ⟨after, ts2⟩ := pr
            rw [hig] at h; dsimp only at h
            obtain ⟨m1, hm1, hc2⟩ := parse_ignored_chain h3 hig
            rcases hloop : map_loop text fuel sp after [] ts2 with e | pr2
            · rw [hloop] at h; simp at h
            · obtain ⟨tr, ts3⟩ := pr2
              rw [hloop] at h; dsimp only at h
              simp only [Except.ok.injEq, Prod.mk.injEq, Option.some.injEq] at h
              obtain ⟨htr, hts⟩ := h
              subst htr; subst hts
              have hacc : spansChain a (sp :: (after.spans ++ map_items_spans [])) m1 :=
                ⟨h1, h2, by simpa [map_items_spans] using hm1⟩
              exact ihml hacc hc2 hloop
        all_goals simp at h
    · -- list_loop
      intro opener after items ts ts' a0 a b tree hacc hc h
      simp only [list_loop] at h
      rcases he : parse_expr text fuel ts with e | pr
      · rw [he] at h; simp at h
      · obtain ⟨o, ts1⟩ := pr
        rw [he] at h
        cases o with
        | some item =>
          dsimp only at h
          obtain ⟨m1, hm1, hc1⟩ := ihe hc he
          rcases hig : parse_ignored ts1 with e | pr2
          · rw [hig] at h; simp at h
          · obtain ⟨after_item, ts2⟩ := pr2
            rw [hig] at h; dsimp only at h
            obtain ⟨m2, hm2, hc2⟩ := parse_ignored_chain hc1 hig
            rcases hsep : parse_item_sep ts2 with e | pr3
            · rw [hsep] at h; simp at h
            · obtain ⟨sep, ts3⟩ := pr3
              rw [hsep] at h; dsimp only at h
              obtain ⟨m3, hm3, hc3⟩ := parse_item_sep_chain hc2 hsep
              have hx : spansChain a
                  (tree_spans item ++ (after_item.spans ++ sep_spans sep)) m3 :=
                spansChain_append _ _ _ _ _ hm1 (spansChain_append _ _ _ _ _ hm2 hm3)
              have hext := spansChain_cons_extend hacc hx
              have hacc2 : spansChain a0
                  (opener :: (after.spans ++
                    list_items_spans (items ++ [⟨item, after_item, sep⟩]))) m3 := by
                simpa [list_items_spans_append, list_items_spans, List.append_assoc]
                  using hext
              exact ihll hacc2 hc3 h
        | none =>
          dsimp only at h
          cases ts with
          | nil => simp at h
          | cons t rest =>
            obtain ⟨tt, sp⟩ := t
            obtain ⟨h1, h2, h3⟩ := toksChain_cons.mp hc
            cases tt
            case RSquare =>
              dsimp only at h
              simp only [Except.ok.injEq, Prod.mk.injEq] at h
              obtain ⟨htr, hts⟩ := h
              subst htr; subst hts
              refine ⟨sp.stop, ?_, h3⟩
              have hone : spansChain a [sp] sp.stop := ⟨h1, h2, rfl⟩
              have hext := spansChain_cons_extend hacc hone
              simpa [tree_spans, List.append_assoc] using hext
            all_goals simp at h
    · -- map_loop
      intro opener after items ts ts' a0 a b tree hacc hc h
      simp only [map_loop] at h
      rcases he : parse_expr text fuel ts with e | pr
      · rw [he] at h; simp at h
      · obtain ⟨o, ts1⟩ := pr
        rw [he] at h
        cases o with
        | some key =>
          dsimp only at h
          obtain ⟨m1, hm1, hc1⟩ := ihe hc he
          rcases hig : parse_ignored ts1 with e | pr2
          · rw [hig] at h; simp at h
          · obtain ⟨after_key, ts2⟩ := pr2
            rw [hig] at h; dsimp only at h
            obtain ⟨m2, hm2, hc2⟩ := parse_ignored_chain hc1 hig
            rcases hev : parse_expr text fuel ts2 with e | pr3
            · rw [hev] at h; simp at h
            · obtain ⟨ov, ts3⟩ := pr3
              rw [hev] at h
              cases ov with
              | none => simp at h
              | some val =>
                dsimp only at h
                obtain ⟨m3, hm3, hc3⟩ := ihe hc2 hev
                rcases hig2 : parse_ignored ts3 with e | pr4
                · rw [hig2] at h; simp at h
                · obtain ⟨after_val, ts4⟩ := pr4
                  rw [hig2] at h; dsimp only at h
                  obtain ⟨m4, hm4, hc4⟩ := parse_ignored_chain hc3 hig2
                  rcases hsep : parse_item_sep ts4 with e | pr5
                  · rw [hsep] at h; simp at h
                  · obtain ⟨sep, ts5⟩ := pr5
                    rw [hsep] at h; dsimp only at h
                    obtain ⟨m5, hm5, hc5⟩ := parse_item_sep_chain hc4 hsep
                    have hx : spansChain a
                        (tree_spans key ++ (after_key.spans ++ (tree_spans val ++
                          (after_val.spans ++ sep_spans sep)))) m5 :=
                      spansChain_append _ _ _ _ _ hm1 (spansChain_append _ _ _ _ _ hm2
                        (spansChain_append _ _ _ _ _ hm3
                          (spansChain_append _ _ _ _ _ hm4 hm5)))
                    have hext := spansChain_cons_extend hacc hx
                    have hacc2 : spansChain a0
                        (opener :: (after.spans ++
                          map_items_spans (items ++
                            [⟨key, after_key, val, after_val, sep⟩]))) m5 := by
                      simpa [map_items_spans_append, map_items_spans, List.append_assoc]
                        using hext
                    exact ihml hacc2 hc5 h
        | none =>
          dsimp only at h
          cases ts with
          | nil => simp at h
          | cons t rest =>
            obtain ⟨tt, sp⟩ := t
            obtain ⟨h1, h2, h3⟩ := toksChain_cons.mp hc
            cases tt
            case RSquare =>
              dsimp only at h
              simp only [Except.ok.injEq, Prod.mk.injEq] at h
              obtain ⟨htr, hts⟩ := h
              subst htr; subst hts
              refine ⟨sp.stop, ?_, h3⟩
              have hone : spansChain a [sp] sp.stop := ⟨h1, h2, rfl⟩
              have hext := spansChain_cons_extend hacc hone
              simpa [tree_spans, List.append_assoc] using hext
            all_goals simp at h

theorem parse_lossless_chain {text : List Char} {r : LosslessParseResult}
    (h : parse_lossless text = .ok r) :
    spansChain 0 (result_spans r) (byteLen text) := by
  rw [parse_lossless] at h
  rcases ht : tokenize text with e | tokens
  · rw [ht] at h; simp at h
  · rw [ht] at h; dsimp only at h
    have htc : toksChain 0 tokens (byteLen text) := by
      have := tokenize_from_chain (text.length + 1) 0 text tokens ht
      simpa [toksChain] using this
    rcases h1 : parse_ignored tokens with e | pr
    · rw [h1] at h; simp at h
    · obtain ⟨before, ts1⟩ := pr
      rw [h1] at h; dsimp only at h
      obtain ⟨m1, hm1, hc1⟩ := parse_ignored_chain htc h1
      rcases h2 : parse_expr text (4 * tokens.length + 8) ts1 with e | pr2
      · rw [h2] at h; simp at h
      · obtain ⟨expr, ts2⟩ := pr2
        rw [h2] at h
        cases expr with
        | none =>
          dsimp only at h
          rcases h3 : parse_ignored ts2 with e | pr3
          · rw [h3] at h; simp at h
          · obtain ⟨after, ts3⟩ := pr3
            rw [h3] at h; dsimp only at h
            cases ts3 <;> simp at h
        | some tree =>
          dsimp only at h
          rcases h3 : parse_ignored ts2 with e | pr3
          · rw [h3] at h; simp at h
          · obtain ⟨after, ts3⟩ := pr3
            rw [h3] at h; dsimp only at h
            obtain ⟨m2, hm2, hc2⟩ := (parser_chain text _).1 hc1 h2
            obtain ⟨m3, hm3, hc3⟩ := parse_ignored_chain hc2 h3
            cases ts3 with
            | cons t rest => simp at h
            | nil =>
              simp only [Except.ok.injEq] at h
              subst h
              have hend : m3 = byteLen text := hc3
              subst hend
              have := spansChain_append _ _ _ _ _
                (spansChain_append _ _ _ _ _ hm1 hm2) hm3
              simpa [result_spans] using this

/-- C1: for every input on which `parse_lossless` succeeds, the recorded spans
— the before-trivia parts, all token spans of the tree (openers, closers,
separator commas and scalar tokens) together with the trivia parts recorded
inside the tree, in source order, and the after-trivia parts — tile the byte
range `[0, byteLen text)` with no gaps and no overlaps, and extracting those
spans from the UTF-8 bytes of the input and concatenating them reproduces the
input byte-for-byte. -/
theorem c1_lossless_roundtrip (text : List Char) (r : LosslessParseResult)
    (h : parse_lossless text = .ok r) :
    spansChain 0 (result_spans r) (byteLen text) ∧
      ((result_spans r).map (extractSeg (utf8Bytes text))).flatten = utf8Bytes text := by
  have hchain := parse_lossless_chain h
  refine ⟨hchain, ?_⟩
  have hx := spansChain_extract (result_spans r) 0 (utf8Bytes text)
    (show spansChain 0 (result_spans r) (utf8Bytes text).length from hchain)
  simpa using hx

def c1_witness_input : List Char := ('#' :: '[' :: 'x' :: '#' :: ']' :: ' ' ::
  '[' :: 'a' :: ',' :: ' ' :: 'b' :: ']' :: ' ' :: [])

def c1_witness_result : LosslessParseResult :=
  match parse_lossless c1_witness_input with
  | .ok r => r
  | .error _ => ⟨⟨[]⟩, .Bool true ⟨0, 0⟩, ⟨[]⟩, []⟩

theorem c1_lossless_roundtrip_witness :
    parse_lossless c1_witness_input = .ok c1_witness_result ∧
      (spansChain 0 (result_spans c1_witness_result) (byteLen c1_witness_input) ∧
        ((result_spans c1_witness_result).map
          (extractSeg (utf8Bytes c1_witness_input))).flatten = utf8Bytes c1_witness_input) :=
  ⟨rfl, c1_lossless_roundtrip c1_witness_input c1_witness_result rfl⟩

/-! ### Concrete parser behaviour -/

/-- The result of a successful parse, with a dummy default for failures. -/
def parse_ok (text : List Char) : LosslessParseResult :=
  match parse_lossless text with
  | .ok r => r
  | .error _ => ⟨⟨[]⟩, .Bool true ⟨0, 0⟩, ⟨[]⟩, []⟩

/-- The items of a list or map tree (keys for a map), for readable statements. -/
def tree_items : ParseTree → List ParseTree
  | .List _ _ items _ => items.map ListItem.item
  | .Map _ _ items _ => items.map MapItem.key
  | _ => []

/-- C3: the claim says `parse_map` accepts the map exactly at a closing brace
so that `\x7ba 1\x7d` parses as a Map.  In the code the closing token checked
is `RSquare`, so `\x7ba 1\x7d` fails with `UnmatchedStartDelimiter` (whose
`expected` text is `]`), while `\x7ba 1]` — a brace-opened, bracket-closed
text — parses as a Map whose closer span covers the `]`. -/
theorem c3_map_closer_is_rsquare :
    parse_lossless "\x7ba 1\x7d".toList =
      .error (.UnmatchedStartDelimiter "]" ⟨0, 1⟩) ∧
    parse_lossless "\x7ba 1]".toList =
      .ok ⟨⟨[]⟩, .Map ⟨0, 1⟩ ⟨[]⟩
        [⟨.Str ['a'] 0 ⟨1, 2⟩, ⟨[⟨⟨2, 3⟩, .HorizontalWhitespace⟩]⟩,
          .Str ['1'] 0 ⟨3, 4⟩, ⟨[]⟩, none⟩] ⟨4, 5⟩, ⟨[]⟩, []⟩ :=
  ⟨rfl, rfl⟩

/-- C7: the claim says `\x7ba 1, a 2\x7d` parses losslessly with exactly one
`DuplicateKey` validation error, and that `to_ast` then returns the errors.
In the code that input does not even parse (the map closer checked is `]`);
on the closest input that does parse, `\x7ba 1, a 2]`, `validation_errors`
is empty — nothing in parse.rs ever records a `DuplicateKey` — and `to_ast`
therefore succeeds, returning (by another slip) the list of lowered keys. -/
theorem c7_duplicate_keys_not_detected :
    parse_lossless "\x7ba 1, a 2\x7d".toList =
      .error (.UnmatchedStartDelimiter "]" ⟨0, 1⟩) ∧
    parse_lossless "\x7ba 1, a 2]".toList = .ok (parse_ok "\x7ba 1, a 2]".toList) ∧
    (parse_ok "\x7ba 1, a 2]".toList).validation_errors = [] ∧
    (parse_ok "\x7ba 1, a 2]".toList).to_ast =
      .ok (.List [.Str ['a'] ⟨1, 2⟩, .Str ['a'] ⟨6, 7⟩] ⟨0, 10⟩) :=
  ⟨rfl, rfl, rfl, rfl⟩

def c8_input : List Char :=
  ['[', 'f', 'o', 'o', ' ', '1', '.', '2', ' ', 't', 'r', 'u', 'e', ' ',
   'f', 'a', 'l', 's', 'e', ' ', squote, 'b', 'a', 'r', squote, ' ',
   dquote, 'b', 'a', 'z', dquote, ']']

/-- C8: on `[foo 1.2 true false 'bar' "baz"]` the parse succeeds and
classifies `true`/`false` as Bool nodes, but `1.2` is NOT classified as a
number: it stays a bare string node (`// todo detect numbers` in
`parse_string`), contradicting the claim that decimal-looking bare words
become `Num` nodes. -/
theorem c8_bare_word_classification :
    parse_lossless c8_input = .ok (parse_ok c8_input) ∧
    tree_items (parse_ok c8_input).tree =
      [.Str ['f', 'o', 'o'] 0 ⟨1, 4⟩, .Str ['1', '.', '2'] 0 ⟨5, 8⟩,
       .Bool true ⟨9, 13⟩, .Bool false ⟨14, 19⟩,
       .Str ['b', 'a', 'r'] 1 ⟨20, 25⟩, .Str ['b', 'a', 'z'] 1 ⟨26, 31⟩] :=
  ⟨rfl, rfl⟩

/-! ## Value, equality, hashing (src/rust/src/lib.rs) and the printer
(src/rust/src/print.rs). -/

/-- `Value` from lib.rs.  The Rust `Map` holds a `HashMap<Value, Value>`;
here it is the list of the map's entries in iteration order. -/
inductive Value where
  | Bool (val : Bool) (span : Span)
  | Num (val : Paml.Num) (span : Span)
  | Str (val : List Char) (span : Span)
  | List (val : List Value) (span : Span)
  | Map (val : List (Value × Value)) (span : Span)

/-- The escape mapping of the `Str` arm of `print_impl`. -/
def escape_char (c : Char) : List Char :=
  if c = backslash then [backslash, backslash]
  else if c = '\n' then [backslash, 'n']
  else if c = '\r' then [backslash, 'r']
  else if c = '\t' then [backslash, 't']
  else if c = dquote then [backslash, dquote]
  else [c]

mutual

/-- `print_impl` from print.rs, threading the output buffer.  As in the
source, a comma is pushed after EVERY list item and map entry
(`// TODO no comma after last item`). -/
def print_impl : Value → List Char → List Char
  | .Bool val _, buf => buf ++ (if val then "true".toList else "false".toList)
  | .Num val _, buf =>
    (buf ++ val.integer_part ++
      (match val.decimal_part with | some dec => '.' :: dec | none => [])) ++
      (match val.exponent with | some exp => 'e' :: exp | none => [])
  | .Str val _, buf => (buf ++ [dquote] ++ val.flatMap escape_char) ++ [dquote]
  | .List val _, buf => print_list_items val (buf ++ ['[']) ++ [']']
  | .Map val _, buf => print_map_items val (buf ++ [lbraceChar]) ++ [rbraceChar]

def print_list_items : List Value → List Char → List Char
  | [], buf => buf
  | v :: rest, buf => print_list_items rest (print_impl v buf ++ [','])

def print_map_items : List (Value × Value) → List Char → List Char
  | [], buf => buf
  | (k, v) :: rest, buf =>
    print_map_items rest (print_impl v (print_impl k buf ++ [' ']) ++ [','])

end

/-- `print` from print.rs. -/
def print (val : Value) : List Char := print_impl val []

/-- C9: the claim says the printer emits a comma only between consecutive
items, never after the last one.  The code pushes a comma after every item
(`// TODO no comma after last item`), so a one-element list prints as
`[true,]`, a two-element list as `[true,false,]`, and a one-entry map ends in
`,\x7d`. -/
theorem c9_printer_trailing_comma :
    print (.List [.Bool true ⟨0, 0⟩] ⟨0, 0⟩) = "[true,]".toList ∧
    print (.List [.Bool true ⟨0, 0⟩, .Bool false ⟨0, 0⟩] ⟨0, 0⟩) =
      "[true,false,]".toList ∧
    print (.Map [(.Str ['a'] ⟨0, 0⟩, .Bool true ⟨0, 0⟩)] ⟨0, 0⟩) =
      "\x7b\x22a\x22 true,\x7d".toList :=
  ⟨rfl, rfl, rfl⟩

/-! ### Equality and hashing of `Value` (impl PartialEq / impl Hash in lib.rs) -/

/-- The primitive writes a `Hasher` receives.  What matters for the claim is
only which token sequence each value contributes. -/
inductive HashToken where
  | hBool (b : Bool)
  | hStr (s : List Char)
  | hOpt (present : Bool)
  | hLen (n : Nat)
deriving DecidableEq

/-- Derived `Hash` for `Num`: the three fields in order; an `Option` hashes
its discriminant and then the payload if present. -/
def num_hash (n : Paml.Num) : List HashToken :=
  .hStr n.integer_part ::
    ((match n.decimal_part with
      | none => [.hOpt false]
      | some d => [.hOpt true, .hStr d]) ++
      (match n.exponent with
      | none => [.hOpt false]
      | some e => [.hOpt true, .hStr e]))

mutual

/-- `impl Hash for Value` from lib.rs: Bool/Num/Str/List hash their payload
(a `Vec` hashes its length and then its elements); the Map arm does nothing
at all ("so that HashMaps all have the same hash"). -/
def value_hash : Value → List HashToken
  | .Bool val _ => [.hBool val]
  | .Num val _ => num_hash val
  | .Str val _ => [.hStr val]
  | .List val _ => .hLen val.length :: list_hash val
  | .Map _ _ => []

def list_hash : List Value → List HashToken
  | [] => []
  | v :: rest => value_hash v ++ list_hash rest

end

mutual

/-- `impl PartialEq for Value` from lib.rs: same variant and equal payloads,
spans ignored.  The fuel argument only makes the mutual recursion structural;
`value_eq 0` is `false`, and any fuel above the nesting depth of both values
computes the Rust equality. -/
def value_eq : Nat → Value → Value → Bool
  | 0, _, _ => false
  | fuel + 1, a, b =>
    match a, b with
    | .Bool l _, .Bool r _ => l == r
    | .Num l _, .Num r _ => l == r
    | .Str l _, .Str r _ => l == r
    | .List l _, .List r _ => list_eq fuel l r
    | .Map l _, .Map r _ => l.length == r.length && map_subset fuel l r
    | _, _ => false

/-- `Vec` equality: equal lengths and elementwise equal. -/
def list_eq : Nat → List Value → List Value → Bool
  | 0, _, _ => false
  | _ + 1, [], [] => true
  | fuel + 1, x :: xs, y :: ys => value_eq fuel x y && list_eq fuel xs ys
  | _ + 1, _, _ => false

/-- `HashMap::get` by the map's key equality. -/
def map_lookup : Nat → Value → List (Value × Value) → Option Value
  | 0, _, _ => none
  | _ + 1, _, [] => none
  | fuel + 1, k, (k1, v1) :: rest =>
    if value_eq fuel k1 k then some v1 else map_lookup fuel k rest

/-- `HashMap` equality body: every entry of the left map is present in the
right map with an equal value. -/
def map_subset : Nat → List (Value × Value) → List (Value × Value) → Bool
  | 0, _, _ => false
  | _ + 1, [], _ => true
  | fuel + 1, (k, v) :: xs, ys =>
    (match map_lookup fuel k ys with
      | some w => value_eq fuel v w
      | none => false) && map_subset fuel xs ys

end

/-- C10: `Value`'s equality and hashing are mutually consistent — equal
values (at any fuel) produce identical hash streams.  Equality ignores spans
and compares payloads structurally; hashing covers the payload for
Bool/Num/Str/List and contributes nothing for Map, so any two equal values
(in particular any two Maps that compare equal) hash identically. -/
theorem c10_eq_hash_consistent : ∀ (fuel : Nat) (a b : Value),
    value_eq fuel a b = true → value_hash a = value_hash b := by
  have main : ∀ fuel : Nat,
      (∀ a b, value_eq fuel a b = true → value_hash a = value_hash b) ∧
      (∀ xs ys, list_eq fuel xs ys = true →
        xs.length = ys.length ∧ list_hash xs = list_hash ys) := by
    intro fuel
    induction fuel with
    | zero =>
      constructor
      · intro a b h; simp [value_eq] at h
      · intro xs ys h; simp [list_eq] at h
    | succ fuel ih =>
      obtain ⟨ihv, ihl⟩ := ih
      constructor
      · intro a b h
        cases a <;> cases b <;> simp only [value_eq] at h
        case Bool.Bool l sp r sp2 =>
          have : l = r := by simpa using h
          subst this
          rfl
        case Num.Num l sp r sp2 =>
          have : l = r := by simpa using h
          subst this
          rfl
        case Str.Str l sp r sp2 =>
          have : l = r := by simpa using h
          subst this
          rfl
        case List.List l sp r sp2 =>
          obtain ⟨hlen, hhash⟩ := ihl l r h
          simp only [value_hash, hlen, hhash]
        case Map.Map l sp r sp2 => rfl
        all_goals simp at h
      · intro xs ys h
        cases xs with
        | nil =>
          cases ys with
          | nil => exact ⟨rfl, rfl⟩
          | cons y ys => simp [list_eq] at h
        | cons x xs =>
          cases ys with
          | nil => simp [list_eq] at h
          | cons y ys =>
            simp only [list_eq, Bool.and_eq_true] at h
            obtain ⟨h1, h2⟩ := h
            obtain ⟨hlen, hhash⟩ := ihl xs ys h2
            refine ⟨by simp [hlen], ?_⟩
            simp only [list_hash, ihv x y h1, hhash]
  intro fuel a b h
  exact (main fuel).1 a b h

theorem c10_eq_hash_consistent_witness :
    value_eq 10 (.Map [(.Bool true ⟨0, 1⟩, .Str ['x'] ⟨1, 2⟩)] ⟨0, 2⟩)
        (.Map [(.Bool true ⟨5, 6⟩, .Str ['x'] ⟨7, 8⟩)] ⟨4, 9⟩) = true ∧
      value_hash (.Map [(.Bool true ⟨0, 1⟩, .Str ['x'] ⟨1, 2⟩)] ⟨0, 2⟩) =
        value_hash (.Map [(.Bool true ⟨5, 6⟩, .Str ['x'] ⟨7, 8⟩)] ⟨4, 9⟩) :=
  ⟨rfl, c10_eq_hash_consistent 10
    (.Map [(.Bool true ⟨0, 1⟩, .Str ['x'] ⟨1, 2⟩)] ⟨0, 2⟩)
    (.Map [(.Bool true ⟨5, 6⟩, .Str ['x'] ⟨7, 8⟩)] ⟨4, 9⟩) rfl⟩

/-! ## Serializer (src/rust/src/ser.rs).

Each Rust method appends to `self.output`; here each function maps the
current output to the new output.  A value's serializer is passed as a
function `List Char → List Char`. -/

def serialize_type (out : List Char) (typ : List Char) : List Char :=
  out ++ ('~' :: typ) ++ [' ']

def serialize_bool (out : List Char) (v : Bool) : List Char :=
  out ++ (if v then "true".toList else "false".toList)

def serialize_unit (out : List Char) : List Char := out ++ "null".toList

/-- `serialize_seq`: pushes the opening bracket. -/
def serialize_seq_begin (out : List Char) : List Char := out ++ ['[']

/-- `serialize_tuple` delegates to `serialize_seq`. -/
def serialize_tuple_begin (out : List Char) : List Char := serialize_seq_begin out

/-- `serialize_tuple_struct`: type tag for `name`, then a tuple. -/
def serialize_tuple_struct_begin (out : List Char) (name : List Char) : List Char :=
  serialize_tuple_begin (serialize_type out name)

/-- `serialize_tuple_variant` delegates to `serialize_tuple_struct` with the
VARIANT as the name. -/
def serialize_tuple_variant_begin (out : List Char) (_name variant : List Char) : List Char :=
  serialize_tuple_struct_begin out variant

/-- `SerializeSeq::serialize_element`: the element, then a comma — after
every element, the last one included. -/
def seq_serialize_element (out : List Char) (ser_value : List Char → List Char) : List Char :=
  ser_value out ++ [',']

/-- `SerializeSeq::end`. -/
def seq_end (out : List Char) : List Char := out ++ [']']

/-- `serialize_unit_variant` from ser.rs: note it passes `name` — the enum
type name, not the variant — to `serialize_type`. -/
def serialize_unit_variant (out : List Char) (name _variant : List Char) : List Char :=
  serialize_unit (serialize_type out name)

/-- `serialize_newtype_variant` from ser.rs: a type tag for the variant, then
`serialize_tuple_variant` (which emits the variant tag AGAIN and `[`), the
value with its trailing comma, then `]`. -/
def serialize_newtype_variant (out : List Char) (name variant : List Char)
    (ser_value : List Char → List Char) : List Char :=
  seq_end (seq_serialize_element
    (serialize_tuple_variant_begin (serialize_type out variant) name variant) ser_value)

/-- `serialize_none`: `serialize_unit_variant("Option", 0, "None")`. -/
def serialize_none (out : List Char) : List Char :=
  serialize_unit_variant out "Option".toList "None".toList

/-- `serialize_some`: `serialize_newtype_variant("Option", 0, "Some", value)`. -/
def serialize_some (out : List Char) (ser_value : List Char → List Char) : List Char :=
  serialize_newtype_variant out "Option".toList "Some".toList ser_value

/-- Decimal digits of a natural number (Rust `to_string`). -/
def nat_to_chars_aux : Nat → Nat → List Char → List Char
  | 0, _, acc => acc
  | fuel + 1, n, acc =>
    if n = 0 then acc
    else nat_to_chars_aux fuel (n / 10) (Char.ofNat (48 + n % 10) :: acc)

def nat_to_chars (n : Nat) : List Char := nat_to_chars_aux (n + 1) n []

def int_to_string (v : Int) : List Char :=
  if v = 0 then ['0']
  else if v < 0 then '-' :: nat_to_chars v.natAbs
  else nat_to_chars v.natAbs

/-- `serialize_i64`: `self.output += &v.to_string()`. -/
def serialize_i64 (out : List Char) (v : Int) : List Char := out ++ int_to_string v

/-- `to_string` for an `i32` value: `serialize_i32` widens to
`serialize_i64`, starting from an empty output. -/
def to_string_i32 (v : Int) : List Char := serialize_i64 [] v

/-- C6: the claim says encoding `Option::None` gives `~None null` and
`Some(true)` gives `~Some [true,]`.  The code's `serialize_unit_variant`
tags with the enum NAME (`Option`), producing `~Option null`, and
`serialize_newtype_variant` emits the `~Some ` tag twice (once itself, once
via `serialize_tuple_variant`), producing `~Some ~Some [true,]`. -/
theorem c6_option_encoding :
    serialize_none [] = "~Option null".toList ∧
    serialize_some [] (fun out => serialize_bool out true) =
      "~Some ~Some [true,]".toList :=
  ⟨rfl, rfl⟩

/-! ## Deserializer (src/rust/src/serde/de.rs). -/

/-- Modelled from the spec: the error type of the serde module lives in
`serde/error.rs`, which is not under `src/`; spec section 7 gives the decode
error surface as `Eof`, `TrailingCharacters(rest)`, `ExpectedType`,
`Message(text)`. -/
inductive DeError where
  | Eof
  | TrailingCharacters (rest : List Char)
  | ExpectedType
  | Message (msg : String)
deriving DecidableEq

/-- Outcome of running a piece of Rust code that may panic or loop forever:
`panics` models a `panic!`/failed `unwrap`, `diverges` models an infinite
loop (fuel exhausted at every fuel). -/
inductive RustOutcome (α : Type) where
  | panics
  | diverges
  | ret (val : α)
deriving DecidableEq

/-- Rust `char::is_whitespace` (the Unicode White_Space code points). -/
def rust_is_whitespace (c : Char) : Bool :=
  [0x09, 0x0A, 0x0B, 0x0C, 0x0D, 0x20, 0x85, 0xA0, 0x1680,
    0x2000, 0x2001, 0x2002, 0x2003, 0x2004, 0x2005, 0x2006, 0x2007, 0x2008,
    0x2009, 0x200A, 0x2028, 0x2029, 0x202F, 0x205F, 0x3000].contains c.toNat

/-- `SPECIAL_CHARS` from serde/de.rs. -/
def SPECIAL_CHARS : List Char := [lbraceChar, rbraceChar, '[', ']']

/-- `ends_word` from serde/de.rs. -/
def ends_word (c : Char) : Bool := SPECIAL_CHARS.contains c || rust_is_whitespace c

/-- `trim_ignored` from serde/de.rs: a `while` loop that strips a whitespace
run, does NOTHING when the next character is `#` (the comment branch is an
empty block), and otherwise breaks.  `none` means the fuel ran out; on a
leading `#` that happens at every fuel, i.e. the loop never terminates. -/
def trim_ignored : Nat → List Char → Option (List Char)
  | 0, _ => none
  | fuel + 1, input =>
    match input with
    | [] => some []
    | c :: _ =>
      if rust_is_whitespace c then trim_ignored fuel (input.dropWhile rust_is_whitespace)
      else if c = '#' then trim_ignored fuel input
      else some input

/-- `parse_keyword` from serde/de.rs. -/
def parse_keyword (keyword : List Char) (input : List Char) : Bool × List Char :=
  if !(input.take keyword.length == keyword) then (false, input)
  else
    match (input.drop keyword.length).head? with
    | none => (true, input.drop keyword.length)
    | some e =>
      if ends_word e then (true, input.drop keyword.length) else (false, input)

/-- The scan loop of `parse_str` for `'`/`"` strings: stop at the quote,
`\` takes the next character verbatim (EOF right after `\` is `Eof`), EOF
without a closing quote returns what was read. -/
def parse_str_quoted (q : Char) : List Char → List Char → Except DeError (List Char × List Char)
  | acc, [] => .ok (acc, [])
  | acc, c :: rest =>
    if c = q then .ok (acc, rest)
    else if c = backslash then
      match rest with
      | [] => .error .Eof
      | c2 :: rest2 => parse_str_quoted q (acc ++ [c2]) rest2
    else parse_str_quoted q (acc ++ [c]) rest

/-- `parse_str` from serde/de.rs. -/
def parse_str (input : List Char) : Except DeError (List Char × List Char) :=
  match input with
  | [] => .error .Eof
  | c :: rest =>
    if c = dquote ∨ c = squote then parse_str_quoted c [] rest
    else if c = backquote then
      -- backtick strings run to the end of the line; the value INCLUDES the
      -- backtick (`take_while` starts at the full input)
      if (input.takeWhile (fun x => x ≠ '\n')).isEmpty then
        .error (.Message "Expected a string, got nothing")
      else
        .ok (input.takeWhile (fun x => x ≠ '\n'),
          input.drop (input.takeWhile (fun x => x ≠ '\n')).length)
    else
      if (input.takeWhile (fun x => !ends_word x)).isEmpty then
        .error (.Message "Expected a word, got whitespace")
      else
        .ok (input.takeWhile (fun x => !ends_word x),
          input.drop (input.takeWhile (fun x => !ends_word x)).length)

/-- `parse_num` from serde/de.rs.  `num` is the leading digit run; the code
then evaluates `self.input.chars().nth(num.len()).unwrap()` — when the run
reaches the end of the input that `nth` is `None` and the `unwrap` panics. -/
def parse_num (input : List Char) : RustOutcome (Option (List Char) × List Char) :=
  if (input.takeWhile Char.isDigit).isEmpty then .ret (none, input)
  else if input.isEmpty then
    .ret (some (input.takeWhile Char.isDigit), input.drop (input.takeWhile Char.isDigit).length)
  else
    match (input.drop (input.takeWhile Char.isDigit).length).head? with
    | none => .panics
    | some e =>
      if ends_word e then
        .ret (some (input.takeWhile Char.isDigit),
          input.drop (input.takeWhile Char.isDigit).length)
      else .ret (none, input)

def digits_to_nat (l : List Char) : Nat :=
  l.foldl (fun acc c => acc * 10 + (c.toNat - 48)) 0

/-- The visit call that `deserialize_any` makes on its visitor. -/
inductive AnyEvent where
  | VisitBool (b : Bool)
  | VisitUnit
  | VisitSeq
  | VisitMap
  | VisitI32 (n : Int)
  | VisitString (s : List Char)
deriving DecidableEq

/-- `deserialize_any` from serde/de.rs: trim trivia, try the keywords
`true`/`false`/`null`, then `[`/`\x7b`, then an integer
(`visit_i32(num.parse().unwrap())` — the parse panics on i32 overflow),
otherwise a string. -/
def deserialize_any (fuel : Nat) (input : List Char) :
    RustOutcome (Except DeError (AnyEvent × List Char)) :=
  match trim_ignored fuel input with
  | none => .diverges
  | some inp =>
    if inp.isEmpty then .ret (.error .Eof)
    else
      match parse_keyword "true".toList inp with
      | (true, inp1) => .ret (.ok (.VisitBool true, inp1))
      | (false, _) =>
        match parse_keyword "false".toList inp with
        | (true, inp1) => .ret (.ok (.VisitBool false, inp1))
        | (false, _) =>
          match parse_keyword "null".toList inp with
          | (true, inp1) => .ret (.ok (.VisitUnit, inp1))
          | (false, _) =>
            if inp.head? = some '[' then .ret (.ok (.VisitSeq, inp.drop 1))
            else if inp.head? = some lbraceChar then .ret (.ok (.VisitMap, inp.drop 1))
            else
              match parse_num inp with
              | .panics => .panics
              | .diverges => .diverges
              | .ret (some num, inp1) =>
                if digits_to_nat num ≤ 2147483647 then
                  .ret (.ok (.VisitI32 (digits_to_nat num), inp1))
                else .panics
              | .ret (none, _) =>
                match parse_str inp with
                | .error e => .ret (.error e)
                | .ok (s, inp1) => .ret (.ok (.VisitString s, inp1))

/-- `from_str::<i32>`: serde forwards `deserialize_i32` to `deserialize_any`;
the i32 visitor accepts `visit_i32` and rejects other shapes; `from_str` then
requires the remaining input to be empty. -/
def from_str_i32 (fuel : Nat) (input : List Char) : RustOutcome (Except DeError Int) :=
  match deserialize_any fuel input with
  | .panics => .panics
  | .diverges => .diverges
  | .ret (.error e) => .ret (.error e)
  | .ret (.ok (.VisitI32 n, rest)) =>
    .ret (if rest.isEmpty then .ok n else .error (.TrailingCharacters rest))
  | .ret (.ok (_, _)) => .ret (.error (.Message "invalid type"))

/-- C4: the claim says every all-digit run bounded by a word boundary —
including end of input — decodes as an integer, never panicking, and that
decoding "123" yields 123.  In the code `parse_num` evaluates
`nth(num.len()).unwrap()` on the character AFTER the digit run; at end of
input that is `None`, so decoding "123" panics (at every fuel).  Digits
bounded by whitespace do work: "123 " reaches `visit_i32(123)`. -/
theorem c4_eof_bounded_integer_panics :
    (∀ fuel, deserialize_any (fuel + 1) "123".toList = .panics) ∧
    (∀ fuel, deserialize_any (fuel + 1) "123 ".toList =
      .ret (.ok (.VisitI32 123, [' ']))) :=
  ⟨fun _ => rfl, fun _ => rfl⟩

/-- C5: the claim says the decoder's trivia skipping terminates on every
input and consumes `#`-to-end-of-line comments, so a prepended comment line
does not change the decoded result.  In the code the `#` branch of
`trim_ignored`'s loop is an empty block: the loop never advances, so on any
input starting with `#` it runs forever (`none` at every fuel), and
`deserialize_any` diverges instead of decoding the value after the comment.
Whitespace alone IS consumed (third conjunct). -/
theorem c5_trim_ignored_diverges_on_comment :
    (∀ fuel (cs : List Char), trim_ignored fuel ('#' :: cs) = none) ∧
    (∀ fuel, deserialize_any fuel ('#' :: 'c' :: '\n' :: '1' :: []) = .diverges) ∧
    (∀ fuel, trim_ignored (fuel + 2) (' ' :: 't' :: []) = some ['t']) := by
  have h1 : ∀ fuel (cs : List Char), trim_ignored fuel ('#' :: cs) = none := by
    intro fuel
    induction fuel with
    | zero => intro cs; rfl
    | succ fuel ih => intro cs; simpa [trim_ignored, rust_is_whitespace] using ih cs
  refine ⟨h1, ?_, fun _ => rfl⟩
  intro fuel
  simp [deserialize_any, h1 fuel]

/-- C2: the claim says `from_str(to_string(v)) == v` for NaN-free values.
For `v = 123 : i32` the encoder produces "123", and decoding that panics
(the `unwrap` in `parse_num`, see C4), so the round trip does not return
`v`.  (Option round trips are also broken: see the C6 encodings.) -/
theorem c2_roundtrip_broken_for_i32 :
    to_string_i32 123 = "123".toList ∧
    (∀ fuel, from_str_i32 (fuel + 1) (to_string_i32 123) = .panics) :=
  ⟨rfl, fun _ => rfl⟩

end Paml
